import Mathlib

/-!
Verification of the OpenNexus bootstrap memory manager (src/memory.c).

The heap allocator state is embedded shallowly: the intrusive doubly linked
Block List becomes a Lean `List Block` kept in chain order, where each `Block`
records the 32-bit address of its header (`addr`), its payload size in bytes
(`size`, a u32 value) and its free flag.  All arithmetic the C code performs
on `u32` values is modelled on `Nat` with explicit reduction modulo `2 ^ 32`.
Fallible operations (`memory_free` dereferences a caller supplied pointer)
return `Option`: `none` marks an execution whose behaviour is undefined at the
C level (the pointer does not address any live block header).
-/

namespace OpenNexus

/-- Word size modulus for the 32-bit target: `2 ^ 32`. -/
def U32 : Nat := 4294967296

/-- One kilobyte, from kernel.h (`KB`). -/
def KB : Nat := 1024

/-- One megabyte, from kernel.h (`MB`). -/
def MB : Nat := 1048576

/-- u32 addition, as performed by the C code. -/
def u32add (a b : Nat) : Nat := (a + b) % U32

/-- u32 subtraction `a - b` for `b ≤ U32`, as performed by the C code. -/
def u32sub (a b : Nat) : Nat := (a + (U32 - b)) % U32

/-- Heap arena base address: `heap_start = 0x100000` in memory_init. -/
def heapBase : Nat := 1048576

/-- Heap arena size: `heap_size = 4 * MB` in memory_init. -/
def heapSize : Nat := 4 * MB

/-- Size of the `MemoryBlock` header on the 32-bit target:
`u32 size` (4 bytes), `bool free` (padded to the 4-byte pointer alignment),
`next` and `prev` pointers (4 bytes each), so 16 bytes in total. -/
def hdrSize : Nat := 16

/-- Error codes used by memory.c (values live in the kernel header; the
claims only compare constructors, so an inductive type suffices). -/
inductive ErrorCode where
  | ERR_SUCCESS
  | ERR_INVALID_ARG
  | ERR_GENERIC
deriving DecidableEq, Repr

/-- One `MemoryBlock` header of the intrusive Block List.  `addr` is the
address of the header itself (the C code reaches it through the `next` and
`prev` pointers; keeping the address explicit models that pointer identity),
`size` the payload size in bytes excluding the header, `free` the state flag. -/
structure Block where
  addr : Nat
  size : Nat
  free : Bool
deriving DecidableEq, Repr

/-- Global state of the heap allocator: the Block List (in chain order,
head at `memory_list`) and the u32 counters `memory_used`, the byte counter
named `memory_free` in the C file (`memFreeBytes` here, to keep the name of
the `memory_free` function available) and `memory_block_count`. -/
structure Heap where
  blocks : List Block
  memUsed : Nat
  memFreeBytes : Nat
  blockCount : Nat
deriving DecidableEq, Repr

/-- Heap state installed by `memory_init` (lines 41-47): one free block
spanning the whole 4 MB arena, payload `heap_size - sizeof(MemoryBlock)`;
`memory_used = 0`, `memory_free = memory_total = 16 MB`, block count 1. -/
def initHeap : Heap :=
  { blocks := [⟨heapBase, heapSize - hdrSize, true⟩]
    memUsed := 0
    memFreeBytes := 16 * MB
    blockCount := 1 }

/-- Rounding of the request to an 8-byte boundary: `size = (size + 7) & ~7`
on u32 (memory.c line 68).  Clearing the low three bits is division and
multiplication by 8. -/
def roundUp8 (size : Nat) : Nat := ((size + 7) % U32) / 8 * 8

/-- The two blocks a successful split produces from the selected block `b`
for a rounded request `r` (memory.c lines 74-86): the allocated front block
keeps the header address and is shrunk to `r`; the remainder header is
written at `current + sizeof(MemoryBlock) + size` and inherits the rest. -/
def splitBlk (b : Block) (r : Nat) : List Block :=
  [ { b with size := r, free := false },
    { addr := u32add (u32add b.addr hdrSize) r
      size := u32sub (u32sub b.size r) hdrSize
      free := true } ]

/-- First-fit scan of memory_alloc (lines 70-95) over the Block List for a
rounded request `r`: the first free block whose payload size is at least
`r + sizeof(MemoryBlock)` (u32 comparison) is split; the returned pointer is
`current + sizeof(MemoryBlock)`. -/
def allocScan (r : Nat) : List Block → Option (List Block × Nat)
  | [] => none
  | b :: rest =>
    if b.free && decide (u32add r hdrSize ≤ b.size) then
      some (splitBlk b r ++ rest, u32add b.addr hdrSize)
    else
      (allocScan r rest).map fun pr => (b :: pr.1, pr.2)

/-- memory_alloc (lines 64-98).  `none` is the C `NULL` return, which leaves
the allocator state untouched; `some (p, h')` returns the payload pointer `p`
and the updated state with the counters of lines 88-90 applied. -/
def memory_alloc (h : Heap) (size : Nat) : Option (Nat × Heap) :=
  if size = 0 then none else
  match allocScan (roundUp8 size) h.blocks with
  | none => none
  | some (bs, p) =>
    some (p,
      { blocks := bs
        memUsed := u32add h.memUsed (u32add (roundUp8 size) hdrSize)
        memFreeBytes := u32sub h.memFreeBytes (u32add (roundUp8 size) hdrSize)
        blockCount := u32add h.blockCount 1 })

/-- Merging step of memory_coalesce (line 127): the first block absorbs its
successor, `current->size += current->next->size + sizeof(MemoryBlock)` on
u32, keeping its own address and flag. -/
def mergeB (b c : Block) : Block :=
  { b with size := (b.size + c.size + hdrSize) % U32 }

/-- Fuelled single forward pass of memory_coalesce (lines 121-139) carrying
the u32 `memory_block_count`: whenever the current block and its successor
are both free they are merged, the count is decremented, and the scan stays
on the merged block.  The fuel only serves structural recursion; it is spent
once per examined pair, so `l.length` steps always suffice. -/
def coalesceAux : Nat → List Block → Nat → List Block × Nat
  | 0, l, n => (l, n)
  | fuel + 1, l, n =>
    match l with
    | b :: c :: rest =>
      if b.free && c.free then
        coalesceAux fuel (mergeB b c :: rest) (u32sub n 1)
      else
        let r := coalesceAux fuel (c :: rest) n
        (b :: r.1, r.2)
    | l' => (l', n)

/-- One full pass of memory_coalesce over a Block List with block counter. -/
def coalesceGo (l : List Block) (n : Nat) : List Block × Nat :=
  coalesceAux l.length l n

/-- The Block List after one memory_coalesce pass (counter ignored). -/
def coalesceList (l : List Block) : List Block := (coalesceGo l 0).1

/-- memory_coalesce as a state transformer on the heap (lines 121-139): it
rewrites the Block List and decrements `memory_block_count` once per merge,
leaving the byte counters alone. -/
def memory_coalesce (h : Heap) : Heap :=
  { h with blocks := (coalesceGo h.blocks h.blockCount).1
           blockCount := (coalesceGo h.blocks h.blockCount).2 }

/-- Running memory_coalesce repeatedly until a pass changes nothing, with
explicit fuel bounding the number of passes. -/
def coalesceUntil : Nat → List Block → List Block
  | 0, l => l
  | fuel + 1, l =>
    if coalesceList l = l then l else coalesceUntil fuel (coalesceList l)

/-- Lookup of the block header a pointer dereference reaches: the first list
entry whose header address equals the given address.  In every well-formed
state header addresses are distinct, so this is exactly the header the C code
reads at `ptr - sizeof(MemoryBlock)`. -/
def findBlk : List Block → Nat → Option Block
  | [], _ => none
  | b :: rest, a => if b.addr = a then some b else findBlk rest a

/-- Marks the first block with the given header address as free, leaving the
rest of the list unchanged (memory.c line 110). -/
def markFreeAt : List Block → Nat → List Block
  | [], _ => []
  | b :: rest, a =>
    if b.addr = a then { b with free := true } :: rest else b :: markFreeAt rest a

/-- memory_free (lines 101-118).  A null pointer is an invalid argument; the
header read at `ptr - sizeof(MemoryBlock)` either shows an already free block
(double free, `ERR_GENERIC`, no mutation) or the block is marked free, the
byte counters are updated by payload size plus header size, and a coalescing
pass runs.  `none` models the undefined dereference of a pointer that does
not address any live header. -/
def memory_free (h : Heap) (ptr : Nat) : Option (ErrorCode × Heap) :=
  if ptr = 0 then some (.ERR_INVALID_ARG, h) else
  match findBlk h.blocks (u32sub ptr hdrSize) with
  | none => none
  | some b =>
    if b.free then some (.ERR_GENERIC, h)
    else
      some (.ERR_SUCCESS, memory_coalesce
        { h with blocks := markFreeAt h.blocks (u32sub ptr hdrSize)
                 memUsed := u32sub h.memUsed (u32add b.size hdrSize)
                 memFreeBytes := u32add h.memFreeBytes (u32add b.size hdrSize) })

/-- Pool type tags from memory.h (the enum constants are used by memory.c). -/
inductive MemoryPoolType where
  | MEM_POOL_DEFAULT
  | MEM_POOL_SMALL
  | MEM_POOL_MEDIUM
  | MEM_POOL_LARGE
  | MEM_POOL_SPECIAL
deriving DecidableEq, Repr

/-- mempool_get_block_size (lines 190-198): the advisory block size constant
selected by the pool type. -/
def mempool_get_block_size : MemoryPoolType → Nat
  | .MEM_POOL_SMALL => 64
  | .MEM_POOL_MEDIUM => 256
  | .MEM_POOL_LARGE => 1024
  | .MEM_POOL_SPECIAL => 4096
  | _ => 128

/-- Modelled from the spec: the registry capacity `MAX_MEMPOOLS` is declared
in memory.h, which is not under src/; the spec only fixes that the registry
is a fixed-capacity array.  The concrete value is immaterial to every claim;
16 is used here. -/
def MAX_MEMPOOLS : Nat := 16

/-- Modelled from the spec: `sizeof(MemoryPool)` depends on the struct layout
in memory.h, which is not under src/ (the spec lists the fields: id, name
buffer, type, base_address, size, block_size, flags and the four bump
counters).  The concrete value is immaterial to every claim; 72 bytes (a
32-byte name buffer plus ten u32 fields) is used here. -/
def poolStructSize : Nat := 72

/-- One `MemoryPool` structure.  `addr` is the address of the structure
itself, i.e. the pointer `memory_alloc` returned for it: the C code
identifies pools by this pointer (`memory_pools[i] == pool`), so it is part
of the model.  The remaining fields are the struct fields of memory.h as
used by memory.c; the name is kept as a whole string (the fixed-width
`strncpy` truncation plays no role in any claim). -/
structure MemoryPool where
  addr : Nat
  id : Nat
  name : String
  ptype : MemoryPoolType
  base_address : Nat
  size : Nat
  block_size : Nat
  flags : Nat
  used : Nat
  allocations : Nat
  frees : Nat
  peak_usage : Nat
deriving DecidableEq, Repr

/-- Whole-kernel allocator state: the heap, the `memory_pools` registry array
(slot by slot, `none` for a NULL slot) and the u32 `memory_pool_count`. -/
structure KState where
  heap : Heap
  pools : List (Option MemoryPool)
  poolCount : Nat
deriving DecidableEq, Repr

/-- State before `memory_init` runs its pool setup: the freshly carved heap,
an all-NULL registry (`memset` of line 50) and a zero pool count. -/
def kstate0 : KState :=
  { heap := initHeap, pools := List.replicate MAX_MEMPOOLS none, poolCount := 0 }

/-- Insertion loop of mempool_create (lines 174-179): the pool is stored in
the first NULL slot; if every slot is taken the loop falls through and the
array is left unchanged. -/
def insertPool : List (Option MemoryPool) → MemoryPool → List (Option MemoryPool)
  | [], _ => []
  | none :: rest, p => some p :: rest
  | some q :: rest, p => some q :: insertPool rest p

/-- Removal loop of mempool_destroy (lines 236-241): the first slot holding
the given pool pointer is cleared; further slots are not inspected. -/
def removePool : List (Option MemoryPool) → Nat → List (Option MemoryPool)
  | [], _ => []
  | none :: rest, a => none :: removePool rest a
  | some q :: rest, a =>
    if q.addr = a then none :: rest else some q :: removePool rest a

/-- mempool_create (lines 142-187).  Registry at capacity or a failed
metadata allocation return NULL with the state untouched; a failed body
allocation releases the metadata block again and returns NULL; otherwise the
pool is set up with `id = memory_pool_count + 1`, stored in the first free
slot, and the count is incremented.  The outer `Option` is `none` only if a
release inside the failure path itself dereferences a dead header, which
cannot happen from a well-formed heap. -/
def mempool_create (s : KState) (name : String) (ty : MemoryPoolType) (size : Nat) :
    Option (Option MemoryPool × KState) :=
  if MAX_MEMPOOLS ≤ s.poolCount then some (none, s) else
  match memory_alloc s.heap poolStructSize with
  | none => some (none, s)
  | some (pAddr, h₁) =>
    match memory_alloc h₁ size with
    | none =>
      match memory_free h₁ pAddr with
      | none => none
      | some (_, h₂) => some (none, { s with heap := h₂ })
    | some (bodyAddr, h₂) =>
      let pool : MemoryPool :=
        { addr := pAddr
          id := u32add s.poolCount 1
          name := name
          ptype := ty
          base_address := bodyAddr
          size := size
          block_size := mempool_get_block_size ty
          flags := 0
          used := 0
          allocations := 0
          frees := 0
          peak_usage := 0 }
      some (some pool,
        { heap := h₂
          pools := insertPool s.pools pool
          poolCount := u32add s.poolCount 1 })

/-- mempool_alloc (lines 201-218): bump allocation.  A NULL pool or a zero
size returns NULL; a request overrunning `pool->size` (u32 comparison)
returns NULL without touching the pool; otherwise the pointer
`base_address + used` is returned, `used` advances by `size`, `allocations`
is incremented and `peak_usage` is raised if surpassed.  The second
component is the pool as left behind by the call. -/
def mempool_alloc (pool? : Option MemoryPool) (size : Nat) :
    Option Nat × Option MemoryPool :=
  match pool? with
  | none => (none, none)
  | some pool =>
    if size = 0 then (none, some pool) else
    if pool.size < u32add pool.used size then (none, some pool) else
    (some (u32add pool.base_address pool.used),
     some { pool with
              used := u32add pool.used size
              allocations := u32add pool.allocations 1
              peak_usage :=
                if pool.peak_usage < u32add pool.used size
                then u32add pool.used size else pool.peak_usage })

/-- mempool_free (lines 221-227): accounting only.  A NULL pool or pointer is
an invalid argument; otherwise the `frees` counter is incremented and nothing
is reclaimed. -/
def mempool_free (pool? : Option MemoryPool) (ptr : Nat) :
    ErrorCode × Option MemoryPool :=
  match pool? with
  | none => (.ERR_INVALID_ARG, none)
  | some pool =>
    if ptr = 0 then (.ERR_INVALID_ARG, some pool)
    else (.ERR_SUCCESS, some { pool with frees := u32add pool.frees 1 })

/-- mempool_destroy (lines 230-251).  Only a NULL pool argument is rejected;
otherwise the removal loop clears a matching slot if one exists, the body
region and the metadata structure are released to the heap allocator, and
the pool count is decremented — whether or not the pool was registered.  The
outer `Option` is `none` when one of the two releases dereferences a pointer
that addresses no live header (undefined behaviour at the C level). -/
def mempool_destroy (s : KState) (pool? : Option MemoryPool) :
    Option (ErrorCode × KState) :=
  match pool? with
  | none => some (.ERR_INVALID_ARG, s)
  | some pool =>
    let pools' := removePool s.pools pool.addr
    match memory_free s.heap pool.base_address with
    | none => none
    | some (_, h₁) =>
      match memory_free h₁ pool.addr with
      | none => none
      | some (_, h₂) =>
        some (.ERR_SUCCESS,
          { heap := h₂, pools := pools', poolCount := u32sub s.poolCount 1 })

/-- mempool_find (lines 254-261): first registry slot whose pool bears the
given name. -/
def mempool_find (s : KState) (name : String) : Option MemoryPool :=
  match s.pools.find? (fun op => match op with
    | some p => p.name = name
    | none => false) with
  | some (some p) => some p
  | _ => none

/-- Executions of the heap allocator in which every allocation request is at
most `2^32 - 24` bytes, so that the u32 computation `rounded size + header`
never wraps.  Release steps are unrestricted. -/
inductive SafeReach : Heap → Prop where
  | init : SafeReach initHeap
  | alloc (h : Heap) (n p : Nat) (h' : Heap) : SafeReach h → n + 24 ≤ U32 →
      memory_alloc h n = some (p, h') → SafeReach h'
  | free (h : Heap) (ptr : Nat) (e : ErrorCode) (h' : Heap) : SafeReach h →
      memory_free h ptr = some (e, h') → SafeReach h'

/-- Executions of the pool registry consisting of successful
`mempool_create` calls only, starting from the pre-init state `kstate0`
(the process itself begins with the creation of the default pool, which is
such a step). -/
inductive CreateOnly : KState → Prop where
  | base : CreateOnly kstate0
  | step (s : KState) (nm : String) (ty : MemoryPoolType) (sz : Nat)
      (pool : MemoryPool) (s' : KState) : CreateOnly s →
      mempool_create s nm ty sz = some (some pool, s') → CreateOnly s'

/-- Shape of the registry along create-only executions: the occupied slots
form a prefix, slot `i` holds the pool with id `i + 1`, and the live count
equals the number of occupied slots. -/
def RegShape (s : KState) : Prop :=
  ∃ ps : List MemoryPool,
    s.pools = ps.map some ++ List.replicate (MAX_MEMPOOLS - ps.length) none ∧
    ps.length = s.poolCount ∧ s.poolCount ≤ MAX_MEMPOOLS ∧
    ∀ i (hi : i < ps.length), ps[i].id = i + 1

/-- The pool created by `mempool_create kstate0 "a" DEFAULT 1024`. -/
def exPoolA : MemoryPool :=
  ⟨1048592, 1, "a", .MEM_POOL_DEFAULT, 1048680, 1024, 128, 0, 0, 0, 0, 0⟩

/-- The kernel state after that first creation. -/
def exState1 : KState :=
  ⟨⟨[⟨1048576, 72, false⟩, ⟨1048664, 1024, false⟩, ⟨1049704, 4193160, true⟩],
      1128, 16776088, 3⟩,
    some exPoolA :: List.replicate 15 none, 1⟩

/-- The pool created by a second `mempool_create exState1 "b" DEFAULT 1024`. -/
def exPoolB : MemoryPool :=
  ⟨1049720, 2, "b", .MEM_POOL_DEFAULT, 1049808, 1024, 128, 0, 0, 0, 0, 0⟩

/-- The kernel state after the second creation. -/
def exState2 : KState :=
  ⟨⟨[⟨1048576, 72, false⟩, ⟨1048664, 1024, false⟩, ⟨1049704, 72, false⟩,
      ⟨1049792, 1024, false⟩, ⟨1050832, 4192032, true⟩], 2256, 16774960, 5⟩,
    some exPoolA :: some exPoolB :: List.replicate 14 none, 2⟩

/-- The kernel state after `mempool_destroy exState2 (some exPoolA)`. -/
def exState3 : KState :=
  ⟨⟨[⟨1048576, 1112, true⟩, ⟨1049704, 72, false⟩, ⟨1049792, 1024, false⟩,
      ⟨1050832, 4192032, true⟩], 1128, 16776088, 4⟩,
    none :: some exPoolB :: List.replicate 14 none, 1⟩

/-- A `MemoryPool` value never registered in any slot, whose struct pointer
and body pointer both alias the arena's first payload address; used to
exercise `mempool_destroy` on an unknown pool. -/
def strayPool : MemoryPool :=
  ⟨1048592, 7, "stray", .MEM_POOL_DEFAULT, 1048592, 64, 128, 0, 0, 0, 0, 0⟩

/-! ### Derived predicates about Block Lists -/

/-- Sum of `size + header` over the Block List: the number of arena bytes
the list accounts for. -/
def sumB (l : List Block) : Nat := (l.map fun b => b.size + hdrSize).sum

/-- Sum of the payload sizes of a Block List. -/
def sumSizes (l : List Block) : Nat := (l.map Block.size).sum

/-- The payload size of the single block a run of adjacent free blocks
coalesces into, accumulated with the u32 arithmetic of the merge step. -/
def mergedSize : List Block → Nat
  | [] => 0
  | b :: rest => rest.foldl (fun a x => (a + x.size + hdrSize) % U32) b.size

/-- True when the list is empty or its last block is allocated. -/
def lastNotFree : List Block → Bool
  | [] => true
  | [b] => !b.free
  | _ :: b :: rest => lastNotFree (b :: rest)

/-- True when the list is empty or its first block is allocated. -/
def headNotFree : List Block → Bool
  | [] => true
  | b :: _ => !b.free

/-- No two adjacent blocks are both free. -/
def nafB : List Block → Bool
  | b :: c :: rest => !(b.free && c.free) && nafB (c :: rest)
  | _ => true

/-- The list is a gap-free chain of headers starting at address `a` and
ending exactly at the arena end: every header sits where the previous
block's payload stopped.  This is the Block List integrity invariant of the
intrusive list (headers are reached by address arithmetic). -/
def chainB : Nat → List Block → Bool
  | a, [] => a == heapBase + heapSize
  | a, b :: rest => (b.addr == a) && chainB (a + hdrSize + b.size) rest

/-- All payload sizes are multiples of 8. -/
def alignedB (l : List Block) : Bool := l.all fun b => b.size % 8 == 0

/-- Well-formed heap: chain integrity from the arena base, no two adjacent
free blocks, 8-byte aligned payload sizes.  `memory_init` establishes this
and every allocate/release with non-wrapping u32 arithmetic preserves it. -/
def wfHeap (h : Heap) : Bool :=
  chainB heapBase h.blocks && nafB h.blocks && alignedB h.blocks

/-! ### u32 arithmetic lemmas -/

theorem U32_pos : 0 < U32 := by decide

theorem mergeB_addr (b c : Block) : (mergeB b c).addr = b.addr := rfl

theorem mergeB_free (b c : Block) : (mergeB b c).free = b.free := rfl

theorem u32add_small {a b : Nat} (h : a + b < U32) : u32add a b = a + b :=
  Nat.mod_eq_of_lt h

theorem u32sub_exact {a b : Nat} (hba : b ≤ a) (ha : a < U32) (hb : b ≤ U32) :
    u32sub a b = a - b := by
  unfold u32sub
  have h1 : a + (U32 - b) = (a - b) + U32 := by omega
  rw [h1, Nat.add_mod_right, Nat.mod_eq_of_lt (by omega)]

theorem roundUp8_mul8 (n : Nat) : roundUp8 n % 8 = 0 := by
  unfold roundUp8
  omega

theorem roundUp8_lt (n : Nat) : roundUp8 n < U32 := by
  unfold roundUp8
  have h : (n + 7) % U32 < U32 := Nat.mod_lt _ U32_pos
  omega

theorem roundUp8_ge {n : Nat} (h : n + 8 ≤ U32) : n ≤ roundUp8 n := by
  unfold roundUp8
  have h1 : (n + 7) % U32 = n + 7 := Nat.mod_eq_of_lt (by omega)
  rw [h1]
  omega

theorem roundUp8_le {n : Nat} (h : n + 8 ≤ U32) : roundUp8 n ≤ n + 7 := by
  unfold roundUp8
  have h1 : (n + 7) % U32 = n + 7 := Nat.mod_eq_of_lt (by omega)
  rw [h1]
  omega

/-! ### sumB lemmas -/

theorem sumB_nil : sumB [] = 0 := rfl

theorem sumB_cons (b : Block) (l : List Block) :
    sumB (b :: l) = b.size + hdrSize + sumB l := by
  simp [sumB]

theorem sumB_append (l₁ l₂ : List Block) :
    sumB (l₁ ++ l₂) = sumB l₁ + sumB l₂ := by
  simp [sumB]

theorem sumB_markFreeAt (l : List Block) (a : Nat) :
    sumB (markFreeAt l a) = sumB l := by
  induction l with
  | nil => rfl
  | cons b rest ih =>
    by_cases h : b.addr = a <;> simp [markFreeAt, h, sumB_cons, ih]

/-! ### allocScan characterization -/

theorem allocScan_none_iff (r : Nat) (l : List Block) :
    allocScan r l = none ↔
      ∀ b ∈ l, ¬(b.free = true ∧ u32add r hdrSize ≤ b.size) := by
  induction l with
  | nil => simp [allocScan]
  | cons b rest ih =>
    by_cases hfit : b.free = true ∧ u32add r hdrSize ≤ b.size
    · have hc : (b.free && decide (u32add r hdrSize ≤ b.size)) = true := by
        simp [hfit.1, hfit.2]
      simp only [allocScan, hc, if_true]
      simp [hfit]
    · have hc : (b.free && decide (u32add r hdrSize ≤ b.size)) = false := by
        by_cases hb : b.free = true
        · have hnle : ¬ u32add r hdrSize ≤ b.size := fun hle => hfit ⟨hb, hle⟩
          simp [hb, hnle]
        · rw [Bool.not_eq_true] at hb
          simp [hb]
      simp only [allocScan, hc, Bool.false_eq_true, if_false]
      rw [Option.map_eq_none']
      constructor
      · intro hnone b' hb'
        rcases List.mem_cons.mp hb' with rfl | hmem
        · exact hfit
        · exact (ih.mp hnone) b' hmem
      · intro hall
        exact ih.mpr fun b' hb' => hall b' (List.mem_cons_of_mem _ hb')

theorem allocScan_some_decomp (r : Nat) (l : List Block) (bs : List Block) (p : Nat)
    (h : allocScan r l = some (bs, p)) :
    ∃ pre b post, l = pre ++ b :: post ∧
      (∀ b' ∈ pre, ¬(b'.free = true ∧ u32add r hdrSize ≤ b'.size)) ∧
      b.free = true ∧ u32add r hdrSize ≤ b.size ∧
      p = u32add b.addr hdrSize ∧
      bs = pre ++ splitBlk b r ++ post := by
  induction l generalizing bs p with
  | nil => simp [allocScan] at h
  | cons b rest ih =>
    by_cases hc : (b.free && decide (u32add r hdrSize ≤ b.size)) = true
    · have hc' := hc
      rw [Bool.and_eq_true] at hc'
      simp only [allocScan, hc, if_true, Option.some.injEq, Prod.mk.injEq] at h
      refine ⟨[], b, rest, by simp, by simp, hc'.1, of_decide_eq_true hc'.2,
        h.2.symm, by simp [h.1.symm]⟩
    · simp only [allocScan, hc, Bool.false_eq_true, if_false] at h
      rcases Option.map_eq_some'.mp h with ⟨⟨bs', p'⟩, hsc, heq⟩
      simp only [Prod.mk.injEq] at heq
      rcases ih bs' p' hsc with ⟨pre, bsel, post, hl, hpre, hfree, hfit, hp, hbs⟩
      refine ⟨b :: pre, bsel, post, by simp [hl], ?_, hfree, hfit, by rw [← heq.2, hp], ?_⟩
      · intro b' hb'
        rcases List.mem_cons.mp hb' with rfl | hmem
        · intro ⟨hf, hle⟩
          simp [hf, hle] at hc
        · exact hpre b' hmem
      · rw [← heq.1, hbs]; simp

theorem memory_alloc_some (h : Heap) (size p : Nat) (h' : Heap)
    (ha : memory_alloc h size = some (p, h')) :
    size ≠ 0 ∧
    ∃ pre b post, h.blocks = pre ++ b :: post ∧
      (∀ b' ∈ pre, ¬(b'.free = true ∧ u32add (roundUp8 size) hdrSize ≤ b'.size)) ∧
      b.free = true ∧ u32add (roundUp8 size) hdrSize ≤ b.size ∧
      p = u32add b.addr hdrSize ∧
      h' = { blocks := pre ++ splitBlk b (roundUp8 size) ++ post
             memUsed := u32add h.memUsed (u32add (roundUp8 size) hdrSize)
             memFreeBytes := u32sub h.memFreeBytes (u32add (roundUp8 size) hdrSize)
             blockCount := u32add h.blockCount 1 } := by
  by_cases hz : size = 0
  · simp [memory_alloc, hz] at ha
  · refine ⟨hz, ?_⟩
    simp only [memory_alloc, hz, if_false] at ha
    rcases hsc : allocScan (roundUp8 size) h.blocks with _ | ⟨bs, q⟩
    · rw [hsc] at ha; simp at ha
    · rw [hsc] at ha
      simp only [Option.some.injEq, Prod.mk.injEq] at ha
      rcases allocScan_some_decomp _ _ _ _ hsc with
        ⟨pre, b, post, hl, hpre, hfree, hfit, hp, hbs⟩
      exact ⟨pre, b, post, hl, hpre, hfree, hfit, ha.1 ▸ hp,
        by rw [← ha.2, ← hbs]⟩

theorem memory_alloc_none_iff (h : Heap) (size : Nat) (hz : size ≠ 0) :
    memory_alloc h size = none ↔
      ∀ b ∈ h.blocks, ¬(b.free = true ∧ u32add (roundUp8 size) hdrSize ≤ b.size) := by
  simp only [memory_alloc, hz, if_false]
  rcases hsc : allocScan (roundUp8 size) h.blocks with _ | ⟨bs, q⟩
  · simpa using (allocScan_none_iff _ _).mp hsc
  · constructor
    · intro hcontr; simp at hcontr
    · intro hall
      have := (allocScan_none_iff (roundUp8 size) h.blocks).mpr hall
      rw [hsc] at this; exact absurd this (by simp)

/-! ### coalesce lemmas -/

theorem coalesceAux_nil (f n : Nat) : coalesceAux f [] n = ([], n) := by
  cases f <;> rfl

theorem coalesceAux_single (f n : Nat) (b : Block) :
    coalesceAux f [b] n = ([b], n) := by
  cases f <;> rfl

theorem coalesceAux_cons₂ (f n : Nat) (b c : Block) (rest : List Block) :
    coalesceAux (f + 1) (b :: c :: rest) n =
      if (b.free && c.free) = true then
        coalesceAux f (mergeB b c :: rest) (u32sub n 1)
      else
        ((b :: (coalesceAux f (c :: rest) n).1), (coalesceAux f (c :: rest) n).2) :=
  rfl

theorem coalesceAux_fst (f : Nat) : ∀ (l : List Block) (n n' : Nat),
    (coalesceAux f l n).1 = (coalesceAux f l n').1 := by
  induction f with
  | zero => intro l n n'; rfl
  | succ f ih =>
    intro l n n'
    match l with
    | [] => rfl
    | [b] => rfl
    | b :: c :: rest =>
      by_cases hc : (b.free && c.free) = true
      · rw [coalesceAux_cons₂, coalesceAux_cons₂, if_pos hc, if_pos hc]
        exact ih _ _ _
      · rw [coalesceAux_cons₂, coalesceAux_cons₂, if_neg hc, if_neg hc]
        simp only [ih (c :: rest) n n']

theorem coalesceAux_fuel (f : Nat) : ∀ (l : List Block) (n : Nat),
    l.length ≤ f → coalesceAux f l n = coalesceAux l.length l n := by
  induction f with
  | zero =>
    intro l n hl
    have : l = [] := List.length_eq_zero.mp (Nat.le_zero.mp hl)
    subst this; rfl
  | succ f ih =>
    intro l n hl
    match l with
    | [] => rw [coalesceAux_nil, coalesceAux_nil]
    | [b] => rw [coalesceAux_single, coalesceAux_single]
    | b :: c :: rest =>
      have hlen : (b :: c :: rest).length = rest.length + 1 + 1 := by simp
      rw [hlen, coalesceAux_cons₂, coalesceAux_cons₂]
      by_cases hc : (b.free && c.free) = true
      · rw [if_pos hc, if_pos hc,
          ih (mergeB b c :: rest) (u32sub n 1) (by simp at hl ⊢; omega)]
        have h1 : (mergeB b c :: rest).length = rest.length + 1 := by simp
        rw [h1]
      · rw [if_neg hc, if_neg hc,
          ih (c :: rest) n (by simp at hl ⊢; omega)]
        have h1 : (c :: rest).length = rest.length + 1 := by simp
        rw [h1]

@[simp] theorem coalesceList_nil : coalesceList [] = [] := rfl

@[simp] theorem coalesceList_single (b : Block) : coalesceList [b] = [b] := rfl

theorem coalesceList_merge {b c : Block} (rest : List Block)
    (hc : (b.free && c.free) = true) :
    coalesceList (b :: c :: rest) = coalesceList (mergeB b c :: rest) := by
  unfold coalesceList coalesceGo
  have hlen : (b :: c :: rest).length = rest.length + 1 + 1 := by simp
  rw [hlen, coalesceAux_cons₂, if_pos hc]
  have h1 : (mergeB b c :: rest).length = rest.length + 1 := by simp
  rw [coalesceAux_fst (rest.length + 1) (mergeB b c :: rest) (u32sub 0 1) 0, h1]

theorem coalesceList_keep {b c : Block} (rest : List Block)
    (hc : (b.free && c.free) = false) :
    coalesceList (b :: c :: rest) = b :: coalesceList (c :: rest) := by
  unfold coalesceList coalesceGo
  have hlen : (b :: c :: rest).length = rest.length + 1 + 1 := by simp
  rw [hlen, coalesceAux_cons₂, if_neg (by simp [hc])]
  have h1 : (c :: rest).length = rest.length + 1 := by simp
  rw [h1]

theorem coalesceGo_fst (l : List Block) (n : Nat) :
    (coalesceGo l n).1 = coalesceList l := by
  unfold coalesceList coalesceGo
  exact coalesceAux_fst l.length l n 0

theorem nafB_cons₂ (b c : Block) (rest : List Block)
    (h : nafB (b :: c :: rest) = true) :
    (b.free && c.free) = false ∧ nafB (c :: rest) = true := by
  simp only [nafB, Bool.and_eq_true] at h
  refine ⟨?_, h.2⟩
  cases hbf : (b.free && c.free) with
  | false => rfl
  | true =>
    have h1 := h.1
    rw [hbf] at h1
    simp at h1

/-- A list with no adjacent free pair is a fixed point of one coalescing
pass.  Every proof about `coalesceList` below recurses on list length. -/
theorem coalesceList_naf_fix : ∀ (k : Nat) (l : List Block), l.length ≤ k →
    nafB l = true → coalesceList l = l := by
  intro k
  induction k with
  | zero =>
    intro l hl _
    have : l = [] := List.length_eq_zero.mp (Nat.le_zero.mp hl)
    subst this; rfl
  | succ k ih =>
    intro l hl hnaf
    match l with
    | [] => rfl
    | [b] => rfl
    | b :: c :: rest =>
      rcases nafB_cons₂ b c rest hnaf with ⟨hnc, hnaf'⟩
      rw [coalesceList_keep rest hnc]
      congr 1
      exact ih (c :: rest) (by simp at hl ⊢; omega) hnaf'

theorem coalesceList_head : ∀ (k : Nat) (b : Block) (rest : List Block),
    rest.length ≤ k →
    ∃ s t, coalesceList (b :: rest) = { addr := b.addr, size := s, free := b.free } :: t := by
  intro k
  induction k with
  | zero =>
    intro b rest hl
    have : rest = [] := List.length_eq_zero.mp (Nat.le_zero.mp hl)
    subst this
    exact ⟨b.size, [], by rw [coalesceList_single]⟩
  | succ k ih =>
    intro b rest hl
    match rest with
    | [] => exact ⟨b.size, [], by rw [coalesceList_single]⟩
    | c :: rest' =>
      by_cases hc : (b.free && c.free) = true
      · rcases ih (mergeB b c) rest' (by simp at hl ⊢; omega) with ⟨s, t, hst⟩
        exact ⟨s, t, by rw [coalesceList_merge rest' hc, hst]; rfl⟩
      · rw [coalesceList_keep rest' (by simpa using hc)]
        exact ⟨b.size, coalesceList (c :: rest'), by rfl⟩

theorem coalesceList_naf : ∀ (k : Nat) (l : List Block), l.length ≤ k →
    nafB (coalesceList l) = true := by
  intro k
  induction k with
  | zero =>
    intro l hl
    have : l = [] := List.length_eq_zero.mp (Nat.le_zero.mp hl)
    subst this; rfl
  | succ k ih =>
    intro l hl
    match l with
    | [] => rfl
    | [b] => rfl
    | b :: c :: rest =>
      by_cases hc : (b.free && c.free) = true
      · rw [coalesceList_merge rest hc]
        exact ih (mergeB b c :: rest) (by simp at hl ⊢; omega)
      · rw [coalesceList_keep rest (by simpa using hc)]
        rcases coalesceList_head (rest.length) c rest (by omega) with ⟨s, t, hst⟩
        have hnaf : nafB ({ addr := c.addr, size := s, free := c.free } :: t) = true := by
          rw [← hst]
          exact ih (c :: rest) (by simp at hl ⊢; omega)
        rw [hst]
        simp only [nafB, Bool.and_eq_true]
        refine ⟨?_, hnaf⟩
        simp only [Bool.not_eq_eq_eq_not, Bool.not_true]
        simpa using hc

theorem coalesceList_idem (l : List Block) :
    coalesceList (coalesceList l) = coalesceList l :=
  coalesceList_naf_fix (coalesceList l).length _ le_rfl
    (coalesceList_naf l.length l le_rfl)

theorem coalesceUntil_eq (fuel : Nat) (l : List Block) (hf : 1 ≤ fuel) :
    coalesceUntil fuel l = coalesceList l := by
  match fuel with
  | f + 1 =>
    simp only [coalesceUntil]
    by_cases h : coalesceList l = l
    · rw [if_pos h, h]
    · rw [if_neg h]
      match f with
      | 0 => rfl
      | f' + 1 =>
        simp only [coalesceUntil, coalesceList_idem, if_pos]

theorem coalesceList_append : ∀ (k : Nat) (A B : List Block), A.length ≤ k →
    lastNotFree A = true →
    coalesceList (A ++ B) = coalesceList A ++ coalesceList B := by
  intro k
  induction k with
  | zero =>
    intro A B hl _
    have : A = [] := List.length_eq_zero.mp (Nat.le_zero.mp hl)
    subst this; simp
  | succ k ih =>
    intro A B hl hlast
    match A with
    | [] => simp
    | [a] =>
      have ha : a.free = false := by
        simp only [lastNotFree, Bool.not_eq_eq_eq_not, Bool.not_true] at hlast
        exact hlast
      match B with
      | [] => simp
      | c :: B' =>
        have hc : (a.free && c.free) = false := by simp [ha]
        rw [List.cons_append, List.nil_append, coalesceList_keep B' hc]
        simp
    | a :: a' :: A'' =>
      have hlast' : lastNotFree (a' :: A'') = true := hlast
      by_cases hc : (a.free && a'.free) = true
      · have hA'' : A'' ≠ [] := by
          intro hnil
          subst hnil
          simp only [lastNotFree, Bool.not_eq_eq_eq_not, Bool.not_true] at hlast'
          have hc2 := hc
          rw [Bool.and_eq_true] at hc2
          rw [hlast'] at hc2
          exact Bool.false_ne_true hc2.2
        rw [List.cons_append, List.cons_append, coalesceList_merge _ hc,
          coalesceList_merge _ hc]
        rw [← List.cons_append]
        refine ih (mergeB a a' :: A'') B (by simp at hl ⊢; omega) ?_
        match A'', hA'' with
        | x :: A''', _ => exact hlast'
      · have hc' : (a.free && a'.free) = false := by simpa using hc
        rw [List.cons_append, List.cons_append, coalesceList_keep _ hc',
          coalesceList_keep _ hc']
        rw [← List.cons_append, ih (a' :: A'') B (by simp at hl ⊢; omega) hlast']
        simp

theorem coalesceList_run : ∀ (k : Nat) (run post : List Block) (rb : Block)
    (rt : List Block), run.length ≤ k → run = rb :: rt →
    (∀ b ∈ run, b.free = true) → headNotFree post = true →
    coalesceList (run ++ post) =
      { addr := rb.addr, size := mergedSize run, free := true } :: coalesceList post := by
  intro k
  induction k with
  | zero =>
    intro run post rb rt hl hrun _ _
    subst hrun; simp at hl
  | succ k ih =>
    intro run post rb rt hl hrun hfree hpost
    subst hrun
    have hrb : rb.free = true := hfree rb (by simp)
    match rt with
    | [] =>
      have hmerged : mergedSize [rb] = rb.size := rfl
      have hrbeq : { addr := rb.addr, size := mergedSize [rb], free := true } = rb := by
        rw [hmerged, ← hrb]
      match post with
      | [] => simp [hrbeq]
      | q :: post' =>
        have hq : q.free = false := by
          simp only [headNotFree, Bool.not_eq_eq_eq_not, Bool.not_true] at hpost
          exact hpost
        have hc : (rb.free && q.free) = false := by simp [hq]
        rw [List.cons_append, List.nil_append, coalesceList_keep post' hc]
        simp [hrbeq]
    | rb' :: rt' =>
      have hrb' : rb'.free = true := hfree rb' (by simp)
      have hc : (rb.free && rb'.free) = true := by simp [hrb, hrb']
      rw [List.cons_append, List.cons_append, coalesceList_merge _ hc,
        ← List.cons_append]
      have hrun' : (∀ b ∈ mergeB rb rb' :: rt', b.free = true) := by
        intro b hb
        rcases List.mem_cons.mp hb with rfl | hmem
        · simpa [mergeB] using hrb
        · exact hfree b (by simp [hmem])
      have := ih (mergeB rb rb' :: rt') post (mergeB rb rb') rt'
        (by simp at hl ⊢; omega) rfl hrun' hpost
      rw [this]
      have haddr : (mergeB rb rb').addr = rb.addr := rfl
      have hms : mergedSize (mergeB rb rb' :: rt') = mergedSize (rb :: rb' :: rt') := by
        simp [mergedSize, mergeB]
      rw [haddr, hms]

theorem mergedSize_sum : ∀ (rt : List Block) (a : Nat),
    a + sumSizes rt + rt.length * hdrSize < U32 →
    rt.foldl (fun x y => (x + y.size + hdrSize) % U32) a =
      a + sumSizes rt + rt.length * hdrSize := by
  intro rt
  induction rt with
  | nil => intro a _; simp [sumSizes]
  | cons x rt' ih =>
    intro a hbound
    have hsum : sumSizes (x :: rt') = x.size + sumSizes rt' := by simp [sumSizes]
    have hlen : (x :: rt').length * hdrSize = rt'.length * hdrSize + hdrSize := by
      simp only [List.length_cons, hdrSize]
      ring
    rw [hsum, hlen] at hbound
    have hmod : (a + x.size + hdrSize) % U32 = a + x.size + hdrSize :=
      Nat.mod_eq_of_lt (by omega)
    simp only [List.foldl_cons, hmod]
    rw [ih (a + x.size + hdrSize) (by omega), hsum, hlen]
    ring

theorem mergedSize_eq_sum (run : List Block) (rb : Block) (rt : List Block)
    (hrun : run = rb :: rt)
    (hbound : sumSizes run + (run.length - 1) * hdrSize < U32) :
    mergedSize run = sumSizes run + (run.length - 1) * hdrSize := by
  subst hrun
  have h1 : sumSizes (rb :: rt) = rb.size + sumSizes rt := by simp [sumSizes]
  have h2 : (rb :: rt).length - 1 = rt.length := by simp
  rw [h1, h2] at hbound ⊢
  simp only [mergedSize]
  rw [mergedSize_sum rt rb.size (by omega)]

theorem sumB_coalesceList : ∀ (k : Nat) (l : List Block), l.length ≤ k →
    sumB l < U32 → sumB (coalesceList l) = sumB l := by
  intro k
  induction k with
  | zero =>
    intro l hl _
    have : l = [] := List.length_eq_zero.mp (Nat.le_zero.mp hl)
    subst this; rfl
  | succ k ih =>
    intro l hl hbound
    match l with
    | [] => rfl
    | [b] => rfl
    | b :: c :: rest =>
      by_cases hc : (b.free && c.free) = true
      · rw [coalesceList_merge rest hc]
        have hsum : sumB (b :: c :: rest) = b.size + hdrSize + (c.size + hdrSize) + sumB rest := by
          rw [sumB_cons, sumB_cons]; ring
        have hmod : (b.size + c.size + hdrSize) % U32 = b.size + c.size + hdrSize := by
          apply Nat.mod_eq_of_lt
          rw [hsum] at hbound
          omega
        have hsum' : sumB (mergeB b c :: rest) = sumB (b :: c :: rest) := by
          rw [sumB_cons, hsum]
          simp only [mergeB, hmod]
          ring
        rw [ih (mergeB b c :: rest) (by simp at hl ⊢; omega) (by rw [hsum']; exact hbound),
          hsum']
      · rw [coalesceList_keep rest (by simpa using hc), sumB_cons, sumB_cons,
          ih (c :: rest) (by simp at hl ⊢; omega) (by rw [sumB_cons] at hbound; omega)]

/-! ### Chain and well-formedness lemmas -/

theorem chainB_cons {a : Nat} {b : Block} {rest : List Block}
    (h : chainB a (b :: rest) = true) :
    b.addr = a ∧ chainB (a + hdrSize + b.size) rest = true := by
  simp only [chainB, Bool.and_eq_true, beq_iff_eq] at h
  exact h

theorem chainB_start_le : ∀ (l : List Block) (a : Nat), chainB a l = true →
    a ≤ heapBase + heapSize := by
  intro l
  induction l with
  | nil =>
    intro a h
    simp only [chainB, beq_iff_eq] at h
    omega
  | cons b rest ih =>
    intro a h
    rcases chainB_cons h with ⟨_, hrest⟩
    have := ih _ hrest
    omega

theorem chainB_bounds : ∀ (l : List Block) (a : Nat), chainB a l = true →
    ∀ b ∈ l, a ≤ b.addr ∧ b.addr + hdrSize + b.size ≤ heapBase + heapSize := by
  intro l
  induction l with
  | nil => intro a _ b hb; simp at hb
  | cons c rest ih =>
    intro a h b hb
    rcases chainB_cons h with ⟨haddr, hrest⟩
    rcases List.mem_cons.mp hb with rfl | hmem
    · refine ⟨le_of_eq haddr.symm, ?_⟩
      have := chainB_start_le rest _ hrest
      omega
    · have := ih _ hrest b hmem
      omega

theorem chainB_pre_lt : ∀ (pre : List Block) (a : Nat) (b : Block) (post : List Block),
    chainB a (pre ++ b :: post) = true → ∀ b' ∈ pre, b'.addr < b.addr := by
  intro pre
  induction pre with
  | nil => intro a b post _ b' hb'; simp at hb'
  | cons x pre' ih =>
    intro a b post h b' hb'
    rw [List.cons_append] at h
    rcases chainB_cons h with ⟨hx, hrest⟩
    rcases List.mem_cons.mp hb' with rfl | hmem
    · have hble := (chainB_bounds _ _ hrest b (by simp)).1
      have : hdrSize = 16 := rfl
      omega
    · exact ih _ b post hrest b' hmem

theorem chainB_addr_aligned : ∀ (l : List Block) (a : Nat), chainB a l = true →
    a % 8 = 0 → alignedB l = true → ∀ b ∈ l, b.addr % 8 = 0 := by
  intro l
  induction l with
  | nil => intro a _ _ _ b hb; simp at hb
  | cons c rest ih =>
    intro a h ha hal b hb
    rcases chainB_cons h with ⟨haddr, hrest⟩
    simp only [alignedB, List.all_cons, Bool.and_eq_true, beq_iff_eq] at hal
    rcases List.mem_cons.mp hb with rfl | hmem
    · omega
    · have hcsz : c.size % 8 = 0 := hal.1
      have h16 : hdrSize = 16 := rfl
      exact ih (a + hdrSize + c.size) hrest (by omega) hal.2 b hmem

theorem nafB_append_right : ∀ (A B : List Block),
    nafB (A ++ B) = true → nafB B = true := by
  intro A
  induction A with
  | nil => intro B h; simpa using h
  | cons x A' ih =>
    intro B h
    apply ih
    match hA : A', B with
    | [], [] => rfl
    | [], c :: B' =>
      simp only [List.nil_append] at h ⊢
      exact (nafB_cons₂ x c B' h).2
    | y :: A'', B =>
      simp only [List.cons_append] at h ⊢
      exact (nafB_cons₂ x y (A'' ++ B) h).2

theorem nafB_append_left : ∀ (A B : List Block),
    nafB (A ++ B) = true → nafB A = true := by
  intro A
  induction A with
  | nil => intro B _; rfl
  | cons x A' ih =>
    intro B h
    match A' with
    | [] => rfl
    | y :: A'' =>
      rw [List.cons_append, List.cons_append] at h
      rcases nafB_cons₂ x y (A'' ++ B) h with ⟨hxy, hrest⟩
      have hA' : nafB (y :: A'') = true := ih B (by rw [List.cons_append]; exact hrest)
      simp only [nafB, Bool.and_eq_true]
      exact ⟨by simp [hxy], hA'⟩

theorem nafB_boundary : ∀ (pre : List Block) (b : Block) (post : List Block),
    nafB (pre ++ b :: post) = true → b.free = true →
    lastNotFree pre = true ∧ headNotFree post = true := by
  intro pre b post hnaf hfree
  constructor
  · induction pre with
    | nil => rfl
    | cons x pre' ih =>
      match pre' with
      | [] =>
        rw [List.cons_append, List.nil_append] at hnaf
        rcases nafB_cons₂ x b post hnaf with ⟨hxb, _⟩
        simp only [lastNotFree]
        cases hx : x.free with
        | true =>
          rw [hx, hfree] at hxb
          simp at hxb
        | false => rfl
      | y :: pre'' =>
        rw [List.cons_append] at hnaf
        have := ih (nafB_cons₂ x y (pre'' ++ b :: post) hnaf).2
        exact this
  · have hpost := nafB_append_right pre (b :: post) hnaf
    match post with
    | [] => rfl
    | q :: post' =>
      rcases nafB_cons₂ b q post' hpost with ⟨hbq, _⟩
      simp only [headNotFree]
      rw [hfree] at hbq
      simp only [Bool.true_and] at hbq
      simp [hbq]

theorem findBlk_append_of_not_mem (pre : List Block) (X : List Block) (a : Nat)
    (h : ∀ b' ∈ pre, b'.addr ≠ a) :
    findBlk (pre ++ X) a = findBlk X a := by
  induction pre with
  | nil => rfl
  | cons x pre' ih =>
    rw [List.cons_append]
    simp only [findBlk, h x (by simp), if_false]
    exact ih fun b' hb' => h b' (by simp [hb'])

theorem markFreeAt_append_of_not_mem (pre : List Block) (X : List Block) (a : Nat)
    (h : ∀ b' ∈ pre, b'.addr ≠ a) :
    markFreeAt (pre ++ X) a = pre ++ markFreeAt X a := by
  induction pre with
  | nil => rfl
  | cons x pre' ih =>
    rw [List.cons_append]
    simp only [markFreeAt, h x (by simp), if_false, List.cons_append]
    rw [ih fun b' hb' => h b' (by simp [hb'])]

theorem coalesceList_free_pair (fB rB : Block) (post : List Block)
    (hf : fB.free = true) (hr : rB.free = true)
    (hpost : headNotFree post = true) (hnaf : nafB post = true) :
    coalesceList (fB :: rB :: post) = mergeB fB rB :: post := by
  have hc : (fB.free && rB.free) = true := by simp [hf, hr]
  rw [coalesceList_merge post hc]
  match post with
  | [] => simp
  | q :: post' =>
    have hq : q.free = false := by
      simp only [headNotFree, Bool.not_eq_eq_eq_not, Bool.not_true] at hpost
      exact hpost
    have hc2 : ((mergeB fB rB).free && q.free) = false := by simp [mergeB, hq]
    rw [coalesceList_keep post' hc2]
    congr 1
    exact coalesceList_naf_fix (q :: post').length _ le_rfl hnaf

theorem wfHeap_split (h : Heap) (hwf : wfHeap h = true) :
    chainB heapBase h.blocks = true ∧ nafB h.blocks = true ∧
      alignedB h.blocks = true := by
  simp only [wfHeap, Bool.and_eq_true] at hwf
  exact ⟨hwf.1.1, hwf.1.2, hwf.2⟩

set_option maxRecDepth 4000 in
/-- Releasing a pointer freshly returned by `memory_alloc` on a well-formed
heap succeeds: the header read hits the allocated front half of the split,
the block is flipped to free and the coalescing pass merges it with the free
remainder block the split had created right behind it. -/
theorem memory_free_after_alloc (h : Heap) (size p : Nat) (h₁ : Heap)
    (hwf : wfHeap h = true) (ha : memory_alloc h size = some (p, h₁)) :
    ∃ pre b post h₂,
      h.blocks = pre ++ b :: post ∧
      b.free = true ∧
      p = b.addr + hdrSize ∧
      u32sub p hdrSize = b.addr ∧
      memory_free h₁ p = some (.ERR_SUCCESS, h₂) ∧
      h₂.blocks = pre ++
        mergeB { addr := b.addr, size := roundUp8 size, free := true }
          { addr := u32add (u32add b.addr hdrSize) (roundUp8 size)
            size := u32sub (u32sub b.size (roundUp8 size)) hdrSize
            free := true } :: post ∧
      (∀ b' ∈ pre, b'.addr < b.addr) := by
  rcases wfHeap_split h hwf with ⟨hchain, hnaf, halign⟩
  rcases memory_alloc_some h size p h₁ ha with
    ⟨hz, pre, b, post, hbl, hpre, hbfree, hfit, hp, hh₁⟩
  rw [hbl] at hchain hnaf
  have hpre_lt : ∀ b' ∈ pre, b'.addr < b.addr :=
    chainB_pre_lt pre heapBase b post hchain
  have hbound := (chainB_bounds _ _ hchain b (by simp)).2
  have hbase_le := (chainB_bounds _ _ hchain b (by simp)).1
  have harena : heapBase + heapSize = 5242880 := rfl
  have h16 : hdrSize = 16 := rfl
  have hU : U32 = 4294967296 := rfl
  have hpNat : p = b.addr + hdrSize := by
    rw [hp]
    exact u32add_small (by omega)
  have hpne : p ≠ 0 := by
    rw [hpNat]
    omega
  have hsub : u32sub p hdrSize = b.addr := by
    rw [hpNat, u32sub_exact (by omega) (by omega) (by omega)]
    omega
  set r := roundUp8 size with hr
  set aB : Block := { addr := b.addr, size := r, free := false } with haB
  set rB : Block := { addr := u32add (u32add b.addr hdrSize) r
                      size := u32sub (u32sub b.size r) hdrSize
                      free := true } with hrB
  have hsplit : splitBlk b r = [aB, rB] := rfl
  have hblocks₁ : h₁.blocks = pre ++ aB :: rB :: post := by
    rw [hh₁, hsplit]
    simp
  have hne : ∀ b' ∈ pre, b'.addr ≠ b.addr := fun b' hb' => (hpre_lt b' hb').ne
  rcases nafB_boundary pre b post hnaf hbfree with ⟨hlast, hhead⟩
  have hnaf_pre : nafB pre = true := nafB_append_left _ _ hnaf
  have hnaf_post : nafB post = true := by
    have := nafB_append_right pre _ hnaf
    match post with
    | [] => rfl
    | q :: post' =>
      exact (nafB_cons₂ b q post' this).2
  set fB : Block := { addr := b.addr, size := r, free := true } with hfB
  have hmark : markFreeAt h₁.blocks (u32sub p hdrSize) = pre ++ fB :: rB :: post := by
    rw [hblocks₁, hsub, markFreeAt_append_of_not_mem pre _ _ hne]
    refine congrArg (fun l => pre ++ l) ?_
    show (if aB.addr = b.addr then { aB with free := true } :: rB :: post
      else aB :: markFreeAt (rB :: post) b.addr) = fB :: rB :: post
    rw [if_pos rfl]
  have hfind : findBlk h₁.blocks (u32sub p hdrSize) = some aB := by
    rw [hblocks₁, hsub, findBlk_append_of_not_mem pre _ _ hne]
    show (if aB.addr = b.addr then some aB else findBlk (rB :: post) b.addr) = some aB
    rw [if_pos rfl]
  have hcoal : coalesceList (pre ++ fB :: rB :: post) =
      pre ++ mergeB fB rB :: post := by
    rw [coalesceList_append pre.length pre _ le_rfl hlast,
      coalesceList_free_pair fB rB post rfl rfl hhead hnaf_post,
      coalesceList_naf_fix pre.length pre le_rfl hnaf_pre]
  refine ⟨pre, b, post,
    memory_coalesce
      { h₁ with blocks := markFreeAt h₁.blocks (u32sub p hdrSize)
                memUsed := u32sub h₁.memUsed (u32add aB.size hdrSize)
                memFreeBytes := u32add h₁.memFreeBytes (u32add aB.size hdrSize) },
    hbl, hbfree, hpNat, hsub, ?_, ?_, hpre_lt⟩
  · unfold memory_free
    rw [if_neg hpne, hfind]
    show (if aB.free = true then some (ErrorCode.ERR_GENERIC, h₁)
      else some (ErrorCode.ERR_SUCCESS, memory_coalesce
        { blocks := markFreeAt h₁.blocks (u32sub p hdrSize)
          memUsed := u32sub h₁.memUsed (u32add aB.size hdrSize)
          memFreeBytes := u32add h₁.memFreeBytes (u32add aB.size hdrSize)
          blockCount := h₁.blockCount })) = _
    rw [if_neg (show ¬ aB.free = true from fun hcon => Bool.false_ne_true hcon)]
  · show (memory_coalesce _).blocks = _
    simp only [memory_coalesce, coalesceGo_fst]
    rw [hmark, hcoal]

/-- Inversion of a completed `memory_free`: either the call rejected the
pointer (null or double free) and the state is unchanged, or the Block List
of the result is the coalesced version of the list with the addressed block
marked free. -/
theorem memory_free_blocks (h : Heap) (ptr : Nat) (e : ErrorCode) (h' : Heap)
    (hf : memory_free h ptr = some (e, h')) :
    h' = h ∨ h'.blocks = coalesceList (markFreeAt h.blocks (u32sub ptr hdrSize)) := by
  unfold memory_free at hf
  by_cases hz : ptr = 0
  · rw [if_pos hz] at hf
    simp only [Option.some.injEq, Prod.mk.injEq] at hf
    exact Or.inl hf.2.symm
  · rw [if_neg hz] at hf
    cases hfb : findBlk h.blocks (u32sub ptr hdrSize) with
    | none => rw [hfb] at hf; simp at hf
    | some b =>
      rw [hfb] at hf
      dsimp only at hf
      by_cases hbf : b.free = true
      · rw [if_pos hbf] at hf
        simp only [Option.some.injEq, Prod.mk.injEq] at hf
        exact Or.inl hf.2.symm
      · rw [if_neg hbf] at hf
        simp only [Option.some.injEq, Prod.mk.injEq] at hf
        refine Or.inr ?_
        rw [← hf.2]
        simp only [memory_coalesce, coalesceGo_fst]

theorem sumB_member_le (l : List Block) (b : Block) (hb : b ∈ l) :
    b.size + hdrSize ≤ sumB l := by
  induction l with
  | nil => simp at hb
  | cons c rest ih =>
    rw [sumB_cons]
    rcases List.mem_cons.mp hb with rfl | hmem
    · omega
    · have := ih hmem
      omega

theorem sumB_alloc_preserved (h : Heap) (n p : Nat) (h' : Heap)
    (hbd : n + 24 ≤ U32) (ha : memory_alloc h n = some (p, h'))
    (hsum : sumB h.blocks = heapSize) : sumB h'.blocks = heapSize := by
  rcases memory_alloc_some h n p h' ha with
    ⟨hz, pre, b, post, hbl, _, _, hfit, _, hh'⟩
  have h16 : hdrSize = 16 := rfl
  have hU : U32 = 4294967296 := rfl
  have hHS : heapSize = 4194304 := rfl
  have hble : b.size + hdrSize ≤ sumB h.blocks := by
    apply sumB_member_le
    rw [hbl]; simp
  set r := roundUp8 n with hr
  have hrle : r ≤ n + 7 := roundUp8_le (by omega)
  have hradd : u32add r hdrSize = r + hdrSize := u32add_small (by omega)
  rw [hradd] at hfit
  have hbsz : b.size < U32 := by omega
  have hs1 : u32sub b.size r = b.size - r := u32sub_exact (by omega) hbsz (by omega)
  have hs2 : u32sub (b.size - r) hdrSize = b.size - r - hdrSize :=
    u32sub_exact (by omega) (by omega) (by omega)
  have hsplit : sumB (splitBlk b r) = b.size + hdrSize := by
    simp only [splitBlk, sumB, List.map_cons, List.map_nil, List.sum_cons, List.sum_nil,
      hs1, hs2]
    omega
  rw [hbl, sumB_append, sumB_cons] at hsum
  rw [hh']
  show sumB (pre ++ splitBlk b r ++ post) = heapSize
  rw [sumB_append, sumB_append, hsplit]
  omega

theorem sumB_free_preserved (h : Heap) (ptr : Nat) (e : ErrorCode) (h' : Heap)
    (hf : memory_free h ptr = some (e, h'))
    (hsum : sumB h.blocks = heapSize) : sumB h'.blocks = heapSize := by
  rcases memory_free_blocks h ptr e h' hf with heq | hbl
  · rw [heq]; exact hsum
  · rw [hbl, sumB_coalesceList (markFreeAt h.blocks (u32sub ptr hdrSize)).length _
      le_rfl (by rw [sumB_markFreeAt, hsum]; decide), sumB_markFreeAt]
    exact hsum

/-- C1 (amended): along every execution whose allocation requests keep the
u32 size arithmetic from wrapping (size at most `2^32 - 24`), the sum of
`payload size + header size` over all Blocks of the Block List is exactly
the 4 MB arena size, at every point; split, release and merge steps all
preserve the total. -/
theorem c1_amended_conservation (h : Heap) (hr : SafeReach h) :
    sumB h.blocks = heapSize := by
  induction hr with
  | init => rfl
  | alloc h n p h' _ hbd ha ih => exact sumB_alloc_preserved h n p h' hbd ha ih
  | free h ptr e h' _ hf ih => exact sumB_free_preserved h ptr e h' hf ih

/-- C1 witness: the conservation theorem applied to the initial heap. -/
theorem c1_witness : sumB initHeap.blocks = heapSize :=
  c1_amended_conservation initHeap SafeReach.init

/-- C1 counterexample to the claim as stated: the single call
`memory_alloc(0xFFFFFFF1)` from the freshly initialized heap succeeds (its
rounded size `0xFFFFFFF8` plus the header size wraps to 8, so the 4 MB free
block passes the first-fit test), after which the sum of
`payload size + header size` over the Block List is `2^32 + 4 MB`, not the
4 MB arena size the claim demands at every point of every sequence. -/
theorem c1_counterexample :
    ((memory_alloc initHeap 4294967281).map fun x => sumB x.2.blocks) =
      some 4299161600 ∧
    sumB initHeap.blocks = 4194304 ∧ (4299161600 : Nat) ≠ 4194304 :=
  ⟨rfl, rfl, by decide⟩

/-- C10 (confirmed): every successful `memory_alloc` splits the selected
block unconditionally: the Block List grows by exactly one block, the u32
block counter is incremented once, the inserted remainder block is free, and
in the exact-fit case (selected payload capacity equal to the rounded size
plus the header size, in u32 arithmetic) the remainder block has payload
size 0. -/
theorem c10_always_split (h : Heap) (size p : Nat) (h' : Heap)
    (ha : memory_alloc h size = some (p, h')) :
    h'.blocks.length = h.blocks.length + 1 ∧
    h'.blockCount = u32add h.blockCount 1 ∧
    ∃ pre b post, h.blocks = pre ++ b :: post ∧
      h'.blocks = pre ++
        { addr := b.addr, size := roundUp8 size, free := false } ::
        { addr := u32add (u32add b.addr hdrSize) (roundUp8 size)
          size := u32sub (u32sub b.size (roundUp8 size)) hdrSize
          free := true } :: post ∧
      (b.size = u32add (roundUp8 size) hdrSize →
        u32sub (u32sub b.size (roundUp8 size)) hdrSize = 0) := by
  rcases memory_alloc_some h size p h' ha with
    ⟨hz, pre, b, post, hbl, _, _, _, _, hh'⟩
  have hblocks : h'.blocks = pre ++ splitBlk b (roundUp8 size) ++ post := by
    rw [hh']
  refine ⟨?_, by rw [hh'], pre, b, post, hbl, ?_, ?_⟩
  · rw [hblocks, hbl]
    simp only [splitBlk, List.append_assoc, List.length_append, List.length_cons,
      List.length_nil]
    omega
  · rw [hblocks]
    simp [splitBlk]
  · intro hexact
    rw [hexact]
    have hrlt : roundUp8 size < U32 := roundUp8_lt size
    simp only [u32add, u32sub, U32, hdrSize] at hrlt ⊢
    omega

/-- C10 witness: an exact fit.  On a heap whose single free block has
payload capacity 48, a request of 32 bytes (rounded size 32, header 16)
fits exactly; the split still happens, producing an allocated block of 32
bytes and a free remainder block of size 0, and the counters grow by one. -/
theorem c10_witness :
    memory_alloc ⟨[⟨1048576, 48, true⟩], 0, 0, 1⟩ 32 =
      some (1048592,
        ⟨[⟨1048576, 32, false⟩, ⟨1048624, 0, true⟩], 48, 4294967248, 2⟩) ∧
    (⟨[⟨1048576, 32, false⟩, ⟨1048624, 0, true⟩], 48, 4294967248, 2⟩ : Heap).blocks.length =
      (⟨[⟨1048576, 48, true⟩], 0, 0, 1⟩ : Heap).blocks.length + 1 ∧
    (48 : Nat) = u32add 32 hdrSize := by
  refine ⟨rfl, ?_, by decide⟩
  exact (c10_always_split ⟨[⟨1048576, 48, true⟩], 0, 0, 1⟩ 32 1048592
    ⟨[⟨1048576, 32, false⟩, ⟨1048624, 0, true⟩], 48, 4294967248, 2⟩ rfl).1

/-- C6 (confirmed): for a non-zero request whose u32 size arithmetic does
not wrap (`size + 24 ≤ 2^32`), `memory_alloc` rounds the request up to the
next multiple of 8 and selects the first free Block whose payload size is at
least `rounded + header` — a free block whose capacity equals the rounded
request exactly is skipped, since it leaves no room for the remainder
header.  If no block qualifies the call returns null (`none`, the Block List
untouched); otherwise every earlier block fails the fit test, the selected
block is split in place and the payload pointer of the selected block is
returned. -/
theorem c6_first_fit (h : Heap) (size : Nat) (h0 : 0 < size)
    (hbd : size + 24 ≤ U32) :
    (size ≤ roundUp8 size ∧ roundUp8 size % 8 = 0 ∧ roundUp8 size < size + 8) ∧
    (memory_alloc h size = none ↔
      ∀ b ∈ h.blocks, b.free = true → b.size < roundUp8 size + hdrSize) ∧
    (∀ p h', memory_alloc h size = some (p, h') →
      ∃ pre b post, h.blocks = pre ++ b :: post ∧
        (∀ b' ∈ pre, b'.free = true → b'.size < roundUp8 size + hdrSize) ∧
        b.free = true ∧ roundUp8 size + hdrSize ≤ b.size ∧
        p = u32add b.addr hdrSize ∧
        h'.blocks = pre ++ splitBlk b (roundUp8 size) ++ post) := by
  have h16 : hdrSize = 16 := rfl
  have hrle : roundUp8 size ≤ size + 7 := roundUp8_le (by omega)
  have hrge : size ≤ roundUp8 size := roundUp8_ge (by omega)
  have hradd : u32add (roundUp8 size) hdrSize = roundUp8 size + hdrSize :=
    u32add_small (by omega)
  refine ⟨⟨hrge, roundUp8_mul8 size, by omega⟩, ?_, ?_⟩
  · rw [memory_alloc_none_iff h size (by omega)]
    constructor
    · intro hall b hb hbf
      have hthis := hall b hb
      rw [hradd] at hthis
      have hnle : ¬(roundUp8 size + hdrSize ≤ b.size) := fun hle => hthis ⟨hbf, hle⟩
      omega
    · intro hall b hb
      rw [hradd]
      intro ⟨hbf, hle⟩
      have := hall b hb hbf
      omega
  · intro p h' ha
    rcases memory_alloc_some h size p h' ha with
      ⟨hz, pre, b, post, hbl, hpre, hbf, hfit, hp, hh'⟩
    rw [hradd] at hfit
    refine ⟨pre, b, post, hbl, ?_, hbf, hfit, hp, by rw [hh']⟩
    intro b' hb' hb'f
    have hthis := hpre b' hb'
    rw [hradd] at hthis
    have hnle : ¬(roundUp8 size + hdrSize ≤ b'.size) := fun hle => hthis ⟨hb'f, hle⟩
    omega

/-- C6 witness: on a heap with a free block of capacity 8 (too small), an
allocated block, and a free block of capacity 640, a request of 24 bytes
needs `24 + 16 = 40` bytes of capacity, skips the first two blocks and
splits the third. -/
theorem c6_witness :
    ((24 : Nat) ≤ roundUp8 24 ∧ roundUp8 24 % 8 = 0 ∧ roundUp8 24 < 24 + 8) ∧
    (memory_alloc ⟨[⟨0, 8, true⟩, ⟨100, 64, false⟩, ⟨200, 640, true⟩], 0, 0, 3⟩ 24 = none ↔
      ∀ b ∈ (⟨[⟨0, 8, true⟩, ⟨100, 64, false⟩, ⟨200, 640, true⟩], 0, 0, 3⟩ : Heap).blocks,
        b.free = true → b.size < roundUp8 24 + hdrSize) ∧
    (∀ p h', memory_alloc ⟨[⟨0, 8, true⟩, ⟨100, 64, false⟩, ⟨200, 640, true⟩], 0, 0, 3⟩ 24 =
        some (p, h') →
      ∃ pre b post,
        (⟨[⟨0, 8, true⟩, ⟨100, 64, false⟩, ⟨200, 640, true⟩], 0, 0, 3⟩ : Heap).blocks =
          pre ++ b :: post ∧
        (∀ b' ∈ pre, b'.free = true → b'.size < roundUp8 24 + hdrSize) ∧
        b.free = true ∧ roundUp8 24 + hdrSize ≤ b.size ∧
        p = u32add b.addr hdrSize ∧
        h'.blocks = pre ++ splitBlk b (roundUp8 24) ++ post) :=
  c6_first_fit ⟨[⟨0, 8, true⟩, ⟨100, 64, false⟩, ⟨200, 640, true⟩], 0, 0, 3⟩ 24
    (by decide) (by decide)

/-- C5 (amended): for every request `n` with `0 < n ≤ 2^32 - 8` (so that
rounding `n` up to a multiple of 8 does not wrap u32), a successful
`memory_alloc(n)` on a well-formed heap records a payload size of at least
`n` in the allocated block — whose header sits at `p - header` — and the
returned pointer's offset from the arena base is a multiple of 8. -/
theorem c5_amended_alloc_bounds (h : Heap) (n p : Nat) (h' : Heap)
    (hwf : wfHeap h = true) (h0 : 0 < n) (hbd : n + 8 ≤ U32)
    (ha : memory_alloc h n = some (p, h')) :
    ∃ pre aB post, h'.blocks = pre ++ aB :: post ∧
      aB.addr = u32sub p hdrSize ∧ aB.free = false ∧ n ≤ aB.size ∧
      heapBase + hdrSize ≤ p ∧ (p - heapBase) % 8 = 0 := by
  rcases wfHeap_split h hwf with ⟨hchain, hnaf, halign⟩
  rcases memory_alloc_some h n p h' ha with
    ⟨hz, pre, b, post, hbl, hpre, hbf, hfit, hp, hh'⟩
  have hbound := (chainB_bounds h.blocks heapBase hchain b (by rw [hbl]; simp)).2
  have hbase_le := (chainB_bounds h.blocks heapBase hchain b (by rw [hbl]; simp)).1
  have harena : heapBase + heapSize = 5242880 := rfl
  have h16 : hdrSize = 16 := rfl
  have hU : U32 = 4294967296 := rfl
  have hHB : heapBase = 1048576 := rfl
  have hpNat : p = b.addr + hdrSize := by
    rw [hp]
    exact u32add_small (by omega)
  have hsub : u32sub p hdrSize = b.addr := by
    rw [hpNat, u32sub_exact (by omega) (by omega) (by omega)]
    omega
  have haddr8 : b.addr % 8 = 0 := by
    refine chainB_addr_aligned h.blocks heapBase hchain (by decide) halign b ?_
    rw [hbl]; simp
  refine ⟨pre, { addr := b.addr, size := roundUp8 n, free := false },
    { addr := u32add (u32add b.addr hdrSize) (roundUp8 n)
      size := u32sub (u32sub b.size (roundUp8 n)) hdrSize
      free := true } :: post, ?_, ?_, rfl, roundUp8_ge (by omega), by omega, by omega⟩
  · rw [hh']
    show pre ++ splitBlk b (roundUp8 n) ++ post = _
    simp [splitBlk]
  · rw [hsub]

/-- C5 counterexample to the claim as stated: `n = 0xFFFFFFF9` rounds up,
in u32 arithmetic, to 0, so `memory_alloc(4294967289)` on the freshly
initialized heap succeeds and records a payload size of 0 — far less than
the `n` bytes the claim promises for every u32 value of `n`. -/
theorem c5_counterexample :
    ((memory_alloc initHeap 4294967289).bind fun x =>
      (findBlk x.2.blocks (u32sub x.1 hdrSize)).map Block.size) = some 0 ∧
    (0 : Nat) < 4294967289 ∧ ¬(4294967289 ≤ (0 : Nat)) :=
  ⟨rfl, by decide, by decide⟩

/-- C5 witness: allocating 100 bytes from the freshly initialized heap
returns pointer `0x100010`; the allocated block records 104 bytes (at least
100) and the pointer offset from the arena base, 16, is a multiple of 8. -/
theorem c5_witness :
    wfHeap initHeap = true ∧
    memory_alloc initHeap 100 =
      some (1048592,
        ⟨[⟨1048576, 104, false⟩, ⟨1048696, 4194168, true⟩], 120, 16777096, 2⟩) ∧
    (∃ pre aB post,
      (⟨[⟨1048576, 104, false⟩, ⟨1048696, 4194168, true⟩], 120, 16777096, 2⟩ : Heap).blocks =
        pre ++ aB :: post ∧
      aB.addr = u32sub 1048592 hdrSize ∧ aB.free = false ∧ 100 ≤ aB.size ∧
      heapBase + hdrSize ≤ 1048592 ∧ (1048592 - heapBase) % 8 = 0) :=
  ⟨by decide, rfl,
    c5_amended_alloc_bounds initHeap 100 1048592
      ⟨[⟨1048576, 104, false⟩, ⟨1048696, 4194168, true⟩], 120, 16777096, 2⟩
      (by decide) (by decide) (by decide) rfl⟩

set_option maxRecDepth 4000 in
/-- C3 (confirmed): for a pointer `p` just returned by a successful
`memory_alloc` on a well-formed heap, the first `memory_free(p)` succeeds
(`ERR_SUCCESS`) and leaves the addressed block marked free in the Block
List (coalesced with the free remainder of its own split); an immediately
following second `memory_free(p)` reads the same header, finds it free, and
returns the double-free error `ERR_GENERIC` with the heap — Block List and
all counters — returned exactly unchanged. -/
theorem c3_double_free (h : Heap) (n p : Nat) (h₁ : Heap)
    (hwf : wfHeap h = true) (ha : memory_alloc h n = some (p, h₁)) :
    ∃ h₂, memory_free h₁ p = some (.ERR_SUCCESS, h₂) ∧
      (∃ m, findBlk h₂.blocks (u32sub p hdrSize) = some m ∧ m.free = true) ∧
      memory_free h₂ p = some (.ERR_GENERIC, h₂) := by
  rcases memory_free_after_alloc h n p h₁ hwf ha with
    ⟨pre, b, post, h₂, hbl, hbf, hpNat, hsub, hfree1, hblocks2, hlt⟩
  have hne : ∀ b' ∈ pre, b'.addr ≠ b.addr := fun b' hb' => (hlt b' hb').ne
  set M : Block := mergeB { addr := b.addr, size := roundUp8 n, free := true }
    { addr := u32add (u32add b.addr hdrSize) (roundUp8 n)
      size := u32sub (u32sub b.size (roundUp8 n)) hdrSize
      free := true } with hM
  have hfind : findBlk h₂.blocks (u32sub p hdrSize) = some M := by
    rw [hblocks2, hsub, findBlk_append_of_not_mem pre _ _ hne]
    show (if M.addr = b.addr then some M else findBlk post b.addr) = some M
    rw [if_pos (show M.addr = b.addr by rw [hM, mergeB_addr])]
  have hpne : p ≠ 0 := by
    have h16 : hdrSize = 16 := rfl
    omega
  refine ⟨h₂, hfree1, ⟨M, hfind, rfl⟩, ?_⟩
  unfold memory_free
  rw [if_neg hpne, hfind]
  show (if M.free = true then some (ErrorCode.ERR_GENERIC, h₂) else _) =
    some (ErrorCode.ERR_GENERIC, h₂)
  rw [if_pos (show M.free = true by rw [hM, mergeB_free])]

/-- C3 witness: allocate 100 bytes from the initial heap; releasing the
returned pointer succeeds, and releasing it again immediately yields
`ERR_GENERIC` with the state unchanged. -/
theorem c3_witness :
    wfHeap initHeap = true ∧
    memory_alloc initHeap 100 =
      some (1048592,
        ⟨[⟨1048576, 104, false⟩, ⟨1048696, 4194168, true⟩], 120, 16777096, 2⟩) ∧
    (∃ h₂, memory_free
        ⟨[⟨1048576, 104, false⟩, ⟨1048696, 4194168, true⟩], 120, 16777096, 2⟩
        1048592 = some (.ERR_SUCCESS, h₂) ∧
      (∃ m, findBlk h₂.blocks (u32sub 1048592 hdrSize) = some m ∧ m.free = true) ∧
      memory_free h₂ 1048592 = some (.ERR_GENERIC, h₂)) :=
  ⟨by decide, rfl,
    c3_double_free initHeap 100 1048592
      ⟨[⟨1048576, 104, false⟩, ⟨1048696, 4194168, true⟩], 120, 16777096, 2⟩
      (by decide) rfl⟩

/-- C7 (confirmed): when `mempool_create` is called below the registry
capacity, its metadata allocation succeeds, and its body allocation fails,
the metadata block is released back to the heap allocator (the release
succeeds with `ERR_SUCCESS`) and the call returns null with the registry
array and the pool count exactly as before — only the heap reflects the
alloc/release round trip. -/
theorem c7_pool_create_rollback (s : KState) (nm : String) (ty : MemoryPoolType)
    (sz : Nat) (p₁ : Nat) (h₁ : Heap)
    (hwf : wfHeap s.heap = true) (hcap : s.poolCount < MAX_MEMPOOLS)
    (ha1 : memory_alloc s.heap poolStructSize = some (p₁, h₁))
    (ha2 : memory_alloc h₁ sz = none) :
    ∃ h₂, memory_free h₁ p₁ = some (.ERR_SUCCESS, h₂) ∧
      mempool_create s nm ty sz = some (none, ⟨h₂, s.pools, s.poolCount⟩) := by
  rcases memory_free_after_alloc s.heap poolStructSize p₁ h₁ hwf ha1 with
    ⟨pre, b, post, h₂, _, _, _, _, hfree1, _, _⟩
  refine ⟨h₂, hfree1, ?_⟩
  unfold mempool_create
  rw [if_neg (by omega), ha1]
  show (match memory_alloc h₁ sz with
    | none =>
      match memory_free h₁ p₁ with
      | none => none
      | some (_, h₂) => some (none, { s with heap := h₂ })
    | some (bodyAddr, h₂) => _) = _
  rw [ha2, hfree1]

/-- C7 witness: from the pre-pool-setup kernel state, the 72-byte metadata
allocation succeeds and an 8 MB body request fails on the 4 MB arena; the
metadata block is released again and creation returns null with registry
and pool count untouched. -/
theorem c7_witness :
    wfHeap kstate0.heap = true ∧ kstate0.poolCount < MAX_MEMPOOLS ∧
    memory_alloc kstate0.heap poolStructSize =
      some (1048592,
        ⟨[⟨1048576, 72, false⟩, ⟨1048664, 4194200, true⟩], 88, 16777128, 2⟩) ∧
    memory_alloc ⟨[⟨1048576, 72, false⟩, ⟨1048664, 4194200, true⟩], 88, 16777128, 2⟩
      8388608 = none ∧
    (∃ h₂, memory_free
        ⟨[⟨1048576, 72, false⟩, ⟨1048664, 4194200, true⟩], 88, 16777128, 2⟩
        1048592 = some (.ERR_SUCCESS, h₂) ∧
      mempool_create kstate0 "net" .MEM_POOL_SMALL 8388608 =
        some (none, ⟨h₂, kstate0.pools, kstate0.poolCount⟩)) :=
  ⟨by decide, by decide, rfl, rfl,
    c7_pool_create_rollback kstate0 "net" .MEM_POOL_SMALL 8388608 1048592
      ⟨[⟨1048576, 72, false⟩, ⟨1048664, 4194200, true⟩], 88, 16777128, 2⟩
      (by decide) (by decide) rfl rfl⟩

/-- C4 (amended): running memory_coalesce repeatedly until no change occurs
(any positive number of passes gives the same stable result — one pass
already reaches the fixed point) collapses a maximal contiguous run of
`K = rt.length + 1` adjacent free Blocks to exactly one free Block whose
payload size is the sum of the K original payload sizes plus `(K-1)` header
sizes (assuming that total fits in u32), while the segments before and
after the run are coalesced independently; the run itself contributes a
drop of exactly `K-1` to the block count, the final length being
`|coalesced prefix| + 1 + |coalesced suffix|`. -/
theorem c4_amended_coalesce_run (pre post rt : List Block) (rb : Block) (fuel : Nat)
    (hfree : ∀ b ∈ rb :: rt, b.free = true)
    (hpre : lastNotFree pre = true) (hpost : headNotFree post = true)
    (hfit : sumSizes (rb :: rt) + ((rb :: rt).length - 1) * hdrSize < U32)
    (hfuel : 1 ≤ fuel) :
    coalesceUntil fuel (pre ++ (rb :: rt) ++ post) =
      coalesceList pre ++
        { addr := rb.addr
          size := sumSizes (rb :: rt) + ((rb :: rt).length - 1) * hdrSize
          free := true } :: coalesceList post ∧
    (coalesceUntil fuel (pre ++ (rb :: rt) ++ post)).length =
      (coalesceList pre).length + 1 + (coalesceList post).length := by
  have hmain : coalesceList (pre ++ (rb :: rt) ++ post) =
      coalesceList pre ++
        { addr := rb.addr
          size := sumSizes (rb :: rt) + ((rb :: rt).length - 1) * hdrSize
          free := true } :: coalesceList post := by
    rw [List.append_assoc,
      coalesceList_append pre.length pre _ le_rfl hpre,
      coalesceList_run (rb :: rt).length (rb :: rt) post rb rt le_rfl rfl hfree hpost,
      mergedSize_eq_sum (rb :: rt) rb rt rfl hfit]
  rw [coalesceUntil_eq fuel _ hfuel, hmain]
  refine ⟨rfl, ?_⟩
  simp only [List.length_append, List.length_cons]
  omega

/-- C4 witness: the list `[allocated 8] ++ [free 8, free 8]` (a maximal run
of K = 2 free blocks after an allocated block); three passes — already
stable after one — collapse the run to one free block of size
`8 + 8 + 16 = 32` and the length drops from 3 to 2. -/
theorem c4_witness :
    coalesceUntil 3 ([⟨1048576, 8, false⟩] ++ (⟨1048600, 8, true⟩ :: [⟨1048624, 8, true⟩]) ++ []) =
      coalesceList [⟨1048576, 8, false⟩] ++
        { addr := 1048600
          size := sumSizes (⟨1048600, 8, true⟩ :: [⟨1048624, 8, true⟩]) +
            ((⟨1048600, 8, true⟩ :: [(⟨1048624, 8, true⟩ : Block)]).length - 1) * hdrSize
          free := true } :: coalesceList [] ∧
    (coalesceUntil 3 ([⟨1048576, 8, false⟩] ++ (⟨1048600, 8, true⟩ :: [⟨1048624, 8, true⟩]) ++ [])).length =
      (coalesceList [⟨1048576, 8, false⟩]).length + 1 + (coalesceList []).length :=
  c4_amended_coalesce_run [⟨1048576, 8, false⟩] [] [⟨1048624, 8, true⟩]
    ⟨1048600, 8, true⟩ 3 (by decide) (by decide) (by decide) (by decide) (by decide)

/-- C4 counterexample to the claim as stated: in the Block List
`[free 8, free 8, allocated 8, free 8, free 8]` the final two blocks form a
maximal contiguous run of `K = 2` adjacent free Blocks (the block before
the run is allocated, nothing follows it).  The claim predicts that
coalescing to the fixed point decrements the block count by `K - 1 = 1`,
from 5 to 4; the code's single pass — already a fixed point, as the second
application shows — also collapses the leading run and leaves block count 3. -/
theorem c4_counterexample :
    (memory_coalesce ⟨[⟨1048576, 8, true⟩, ⟨1048600, 8, true⟩, ⟨1048624, 8, false⟩,
        ⟨1048648, 8, true⟩, ⟨1048672, 8, true⟩], 0, 0, 5⟩).blockCount = 3 ∧
    memory_coalesce (memory_coalesce ⟨[⟨1048576, 8, true⟩, ⟨1048600, 8, true⟩,
        ⟨1048624, 8, false⟩, ⟨1048648, 8, true⟩, ⟨1048672, 8, true⟩], 0, 0, 5⟩) =
      memory_coalesce ⟨[⟨1048576, 8, true⟩, ⟨1048600, 8, true⟩, ⟨1048624, 8, false⟩,
        ⟨1048648, 8, true⟩, ⟨1048672, 8, true⟩], 0, 0, 5⟩ ∧
    lastNotFree [⟨1048576, 8, true⟩, ⟨1048600, 8, true⟩, ⟨1048624, 8, false⟩] = true ∧
    (⟨1048648, 8, true⟩ : Block).free = true ∧ (⟨1048672, 8, true⟩ : Block).free = true ∧
    (3 : Nat) ≠ 5 - (2 - 1) :=
  ⟨rfl, rfl, rfl, rfl, rfl, by decide⟩

/-! ### Pool registry lemmas -/

theorem insertPool_shape : ∀ (ps : List MemoryPool) (k : Nat) (q : MemoryPool),
    insertPool (ps.map some ++ List.replicate (k + 1) none) q =
      ps.map some ++ some q :: List.replicate k none := by
  intro ps
  induction ps with
  | nil => intro k q; rfl
  | cons p ps' ih =>
    intro k q
    simp only [List.map_cons, List.cons_append, insertPool]
    show some p :: insertPool (List.map some ps' ++ List.replicate (k + 1) none) q =
      some p :: (List.map some ps' ++ some q :: List.replicate k none)
    rw [ih]

theorem removePool_not_mem : ∀ (l : List (Option MemoryPool)) (a : Nat),
    (∀ op ∈ l, ∀ q, op = some q → q.addr ≠ a) → removePool l a = l := by
  intro l
  induction l with
  | nil => intro a _; rfl
  | cons op rest ih =>
    intro a hall
    match op with
    | none =>
      simp only [removePool]
      rw [ih a fun op' hop' => hall op' (by simp [hop'])]
    | some q =>
      have hq : q.addr ≠ a := hall (some q) (by simp) q rfl
      simp only [removePool, if_neg hq]
      rw [ih a fun op' hop' => hall op' (by simp [hop'])]

theorem mempool_create_some (s : KState) (nm : String) (ty : MemoryPoolType)
    (sz : Nat) (pool : MemoryPool) (s' : KState)
    (hc : mempool_create s nm ty sz = some (some pool, s')) :
    s.poolCount < MAX_MEMPOOLS ∧ pool.id = u32add s.poolCount 1 ∧
    s'.pools = insertPool s.pools pool ∧ s'.poolCount = u32add s.poolCount 1 := by
  unfold mempool_create at hc
  by_cases hcap : MAX_MEMPOOLS ≤ s.poolCount
  · rw [if_pos hcap] at hc
    simp at hc
  · rw [if_neg hcap] at hc
    cases ha1 : memory_alloc s.heap poolStructSize with
    | none => rw [ha1] at hc; simp at hc
    | some pr1 =>
      rw [ha1] at hc
      obtain ⟨pAddr, h₁⟩ := pr1
      dsimp only at hc
      cases ha2 : memory_alloc h₁ sz with
      | none =>
        rw [ha2] at hc
        dsimp only at hc
        cases hf : memory_free h₁ pAddr with
        | none => rw [hf] at hc; simp at hc
        | some pr =>
          rw [hf] at hc
          obtain ⟨e, h₂⟩ := pr
          dsimp only at hc
          simp at hc
      | some pr2 =>
        rw [ha2] at hc
        obtain ⟨bodyAddr, h₂⟩ := pr2
        dsimp only at hc
        simp only [Option.some.injEq, Prod.mk.injEq] at hc
        obtain ⟨hpool, hstate⟩ := hc
        refine ⟨by omega, ?_, ?_, ?_⟩
        · rw [← hpool]
        · rw [← hstate, hpool]
        · rw [← hstate]

theorem regShape_insert (s : KState) (pool : MemoryPool) (s' : KState)
    (hshape : RegShape s) (hcap : s.poolCount < MAX_MEMPOOLS)
    (hid : pool.id = u32add s.poolCount 1)
    (hpools : s'.pools = insertPool s.pools pool)
    (hcount : s'.poolCount = u32add s.poolCount 1) : RegShape s' := by
  obtain ⟨ps, hps, hlen, hle, hids⟩ := hshape
  have hM : MAX_MEMPOOLS = 16 := rfl
  have hU : U32 = 4294967296 := rfl
  have hadd : u32add s.poolCount 1 = s.poolCount + 1 := u32add_small (by omega)
  refine ⟨ps ++ [pool], ?_, ?_, ?_, ?_⟩
  · rw [hpools, hps]
    have hk : MAX_MEMPOOLS - ps.length =
        (MAX_MEMPOOLS - (ps ++ [pool]).length) + 1 := by
      simp only [List.length_append, List.length_cons, List.length_nil]
      omega
    rw [hk, insertPool_shape]
    simp
  · rw [hcount, hadd]
    simp only [List.length_append, List.length_cons, List.length_nil]
    omega
  · rw [hcount, hadd]
    omega
  · intro i hi
    simp only [List.length_append, List.length_cons, List.length_nil] at hi
    by_cases hilt : i < ps.length
    · rw [List.getElem_append_left hilt]
      exact hids i hilt
    · have hieq : i = ps.length := by omega
      subst hieq
      rw [List.getElem_append_right (le_refl ps.length)]
      simp only [Nat.sub_self, List.getElem_cons_zero]
      rw [hid, hadd, hlen]

theorem createOnly_regShape (s : KState) (hr : CreateOnly s) : RegShape s := by
  induction hr with
  | base =>
    refine ⟨[], by simp [kstate0, MAX_MEMPOOLS], rfl, by decide, ?_⟩
    intro i hi
    simp at hi
  | step s nm ty sz pool s' hprev hc ih =>
    rcases mempool_create_some s nm ty sz pool s' hc with ⟨hcap, hid, hpools, hcount⟩
    exact regShape_insert s pool s' ih hcap hid hpools hcount

theorem regShape_get (ps : List MemoryPool) (k i : Nat) (p : MemoryPool)
    (h : (ps.map some ++ List.replicate k none)[i]? = some (some p)) :
    ∃ hi : i < ps.length, ps[i] = p := by
  by_cases hilt : i < ps.length
  · refine ⟨hilt, ?_⟩
    rw [List.getElem?_append_left (by simpa using hilt)] at h
    rw [List.getElem?_map] at h
    rw [List.getElem?_eq_getElem hilt] at h
    simp only [Option.map_some', Option.some.injEq] at h
    exact h
  · exfalso
    rw [List.getElem?_append_right (by simp; omega)] at h
    by_cases hik : i - (ps.map some).length < k
    · rw [List.getElem?_eq_getElem (by simpa using hik)] at h
      simp only [List.getElem_replicate, Option.some.injEq] at h
      exact Option.noConfusion h
    · rw [List.getElem?_eq_none (by simp at hik ⊢; omega)] at h
      exact Option.noConfusion h

/-- C2 (amended): along create-only executions the registry keeps ids
unique among live pools — slot `i` always holds the pool with id `i + 1`
and the count equals the number of live pools, so two distinct occupied
slots carry distinct ids.  (After a destroy this breaks: the id
`live count + 1` can be handed out a second time, see the counterexample.) -/
theorem c2_amended_unique_ids (s : KState) (hr : CreateOnly s)
    (i j : Nat) (p q : MemoryPool) (hij : i ≠ j)
    (hpi : s.pools[i]? = some (some p)) (hqj : s.pools[j]? = some (some q)) :
    p.id ≠ q.id := by
  obtain ⟨ps, hps, hlen, hle, hids⟩ := createOnly_regShape s hr
  rw [hps] at hpi hqj
  obtain ⟨hi, hpi'⟩ := regShape_get ps _ i p hpi
  obtain ⟨hj, hqj'⟩ := regShape_get ps _ j q hqj
  have h1 : p.id = i + 1 := by rw [← hpi']; exact hids i hi
  have h2 : q.id = j + 1 := by rw [← hqj']; exact hids j hj
  omega

/-- C2 witness: after two successful creations from the pre-init state the
two live pools hold ids 1 and 2, and the uniqueness theorem applies to
slots 0 and 1. -/
theorem c2_witness :
    mempool_create kstate0 "a" .MEM_POOL_DEFAULT 1024 = some (some exPoolA, exState1) ∧
    mempool_create exState1 "b" .MEM_POOL_DEFAULT 1024 = some (some exPoolB, exState2) ∧
    exState2.pools[0]? = some (some exPoolA) ∧
    exState2.pools[1]? = some (some exPoolB) ∧
    exPoolA.id ≠ exPoolB.id :=
  ⟨rfl, rfl, rfl, rfl,
    c2_amended_unique_ids exState2
      (CreateOnly.step exState1 "b" .MEM_POOL_DEFAULT 1024 exPoolB exState2
        (CreateOnly.step kstate0 "a" .MEM_POOL_DEFAULT 1024 exPoolA exState1
          CreateOnly.base rfl) rfl)
      0 1 exPoolA exPoolB (by decide) rfl rfl⟩

/-- C2 counterexample to the claim as stated: create "a" (id 1), create "b"
(id 2), destroy "a" (live count back to 1), create "c" — the new pool gets
id `1 + 1 = 2`, which is already borne by the live pool "b", and which had
already been assigned earlier in the process lifetime.  Both live registry
slots then hold id 2: the id is neither unique among live pools nor
assigned only once. -/
theorem c2_counterexample :
    mempool_destroy exState2 (some exPoolA) = some (.ERR_SUCCESS, exState3) ∧
    ((mempool_create exState3 "c" .MEM_POOL_DEFAULT 1024).map fun r =>
      (r.2.pools.take 2).map fun op => op.map MemoryPool.id) =
      some [some 2, some 2] ∧
    exPoolB.id = 2 :=
  ⟨rfl, rfl, rfl⟩

/-- C8 (amended): for every pool and every size with `0 < size` and
non-wrapping `used + size` (< 2^32), `mempool_alloc` returns
`base_address + used` and advances `used` by `size` exactly when
`used + size ≤ pool.size`, and returns null with the pool untouched when
`used + size > pool.size`; `mempool_free` never lowers `used` or changes
the pool size, so space is never reused.  (For `size = 0` the code returns
null even though `used + 0 ≤ pool.size`, see the counterexample.) -/
theorem c8_amended_bump_alloc (pool : MemoryPool) (size : Nat)
    (h0 : 0 < size) (hnw : pool.used + size < U32) :
    (pool.used + size ≤ pool.size →
      mempool_alloc (some pool) size =
        (some (u32add pool.base_address pool.used),
         some { pool with
                  used := pool.used + size
                  allocations := u32add pool.allocations 1
                  peak_usage := if pool.peak_usage < pool.used + size
                    then pool.used + size else pool.peak_usage })) ∧
    (pool.size < pool.used + size →
      mempool_alloc (some pool) size = (none, some pool)) ∧
    (∀ q pl, (mempool_free (some pool) q).2 = some pl →
      pl.used = pool.used ∧ pl.size = pool.size) := by
  have hz : ¬ size = 0 := by omega
  have haddu : u32add pool.used size = pool.used + size := u32add_small hnw
  refine ⟨?_, ?_, ?_⟩
  · intro hle
    unfold mempool_alloc
    dsimp only
    rw [haddu, if_neg hz, if_neg (by omega : ¬ pool.size < pool.used + size)]
  · intro hlt
    unfold mempool_alloc
    dsimp only
    rw [haddu, if_neg hz, if_pos hlt]
  · intro q pl hpl
    unfold mempool_free at hpl
    dsimp only at hpl
    by_cases hq : q = 0
    · rw [if_pos hq] at hpl
      simp only [Option.some.injEq] at hpl
      rw [← hpl]
      exact ⟨rfl, rfl⟩
    · rw [if_neg hq] at hpl
      simp only [Option.some.injEq] at hpl
      rw [← hpl]
      exact ⟨rfl, rfl⟩

/-- C8 witness: the spec's end-to-end pool scenario on a 4096-byte pool at
base 4200: allocating 4000 bytes succeeds with pointer 4200 and `used`
advancing to 4000; the following 200-byte request overruns 4096 and fails
with the pool unchanged. -/
theorem c8_witness :
    mempool_alloc (some ⟨0, 1, "net", .MEM_POOL_SMALL, 4200, 4096, 64, 0, 0, 0, 0, 0⟩) 4000 =
      (some 4200, some ⟨0, 1, "net", .MEM_POOL_SMALL, 4200, 4096, 64, 0, 4000, 1, 0, 4000⟩) ∧
    mempool_alloc (some ⟨0, 1, "net", .MEM_POOL_SMALL, 4200, 4096, 64, 0, 4000, 1, 0, 4000⟩) 200 =
      (none, some ⟨0, 1, "net", .MEM_POOL_SMALL, 4200, 4096, 64, 0, 4000, 1, 0, 4000⟩) := by
  constructor
  · have h := (c8_amended_bump_alloc
      ⟨0, 1, "net", .MEM_POOL_SMALL, 4200, 4096, 64, 0, 0, 0, 0, 0⟩ 4000
      (by decide) (by decide)).1 (by decide)
    rw [h]
    rfl
  · exact (c8_amended_bump_alloc
      ⟨0, 1, "net", .MEM_POOL_SMALL, 4200, 4096, 64, 0, 4000, 1, 0, 4000⟩ 200
      (by decide) (by decide)).2.1 (by decide)

/-- C8 counterexample to the claim as stated: for `size = 0` the condition
`used + size ≤ pool.size` holds (`0 ≤ 4096`), so the claim promises a
pointer `base_address + used`; the code rejects `size == 0` first and
returns null. -/
theorem c8_counterexample :
    mempool_alloc (some ⟨0, 1, "net", .MEM_POOL_SMALL, 4200, 4096, 64, 0, 0, 0, 0, 0⟩) 0 =
      (none, some ⟨0, 1, "net", .MEM_POOL_SMALL, 4200, 4096, 64, 0, 0, 0, 0, 0⟩) ∧
    (⟨0, 1, "net", .MEM_POOL_SMALL, 4200, 4096, 64, 0, 0, 0, 0, 0⟩ : MemoryPool).used + 0 ≤
      (⟨0, 1, "net", .MEM_POOL_SMALL, 4200, 4096, 64, 0, 0, 0, 0, 0⟩ : MemoryPool).size :=
  ⟨rfl, by decide⟩

/-- C9 (amended): `mempool_destroy` rejects only a NULL pool argument
(invalid-argument error, state unchanged).  A non-null pool that is not
present in any registry slot is NOT rejected: whenever the call completes,
it has scanned past the registry without a match (array unchanged), freed
the pool's `base_address` and structure pointers anyway, decremented the
u32 pool count — wrapping at zero — and returned success. -/
theorem c9_amended_destroy (s : KState) (pool : MemoryPool)
    (hnotin : ∀ op ∈ s.pools, ∀ q, op = some q → q.addr ≠ pool.addr) :
    mempool_destroy s none = some (.ERR_INVALID_ARG, s) ∧
    (∀ r s', mempool_destroy s (some pool) = some (r, s') →
      r = .ERR_SUCCESS ∧ s'.pools = s.pools ∧
        s'.poolCount = u32sub s.poolCount 1) := by
  refine ⟨rfl, ?_⟩
  intro r s' hd
  unfold mempool_destroy at hd
  dsimp only at hd
  rw [removePool_not_mem s.pools pool.addr hnotin] at hd
  cases hf1 : memory_free s.heap pool.base_address with
  | none => rw [hf1] at hd; simp at hd
  | some pr1 =>
    rw [hf1] at hd
    obtain ⟨e1, h1⟩ := pr1
    dsimp only at hd
    cases hf2 : memory_free h1 pool.addr with
    | none => rw [hf2] at hd; simp at hd
    | some pr2 =>
      rw [hf2] at hd
      obtain ⟨e2, h2⟩ := pr2
      dsimp only at hd
      simp only [Option.some.injEq, Prod.mk.injEq] at hd
      refine ⟨hd.1.symm, ?_, ?_⟩
      · rw [← hd.2]
      · rw [← hd.2]

/-- C9 witness: destroying NULL from the pre-init state is rejected without
side effects, and destroying the unregistered `strayPool` — whose pointers
alias the free arena payload, so both releases complete (as double-free
errors the code ignores) — returns success and wraps the pool count from 0
to `2^32 - 1`. -/
theorem c9_witness :
    mempool_destroy kstate0 none = some (.ERR_INVALID_ARG, kstate0) ∧
    (∀ r s', mempool_destroy kstate0 (some strayPool) = some (r, s') →
      r = .ERR_SUCCESS ∧ s'.pools = kstate0.pools ∧
        s'.poolCount = u32sub kstate0.poolCount 1) :=
  c9_amended_destroy kstate0 strayPool (by decide)

/-- C9 counterexample to the claim as stated: destroying the unregistered,
non-null `strayPool` from a state with one live pool does not return an
invalid-argument error and is not side-effect free — it returns
`ERR_SUCCESS`, frees the pool "a"'s heap blocks (its struct pointer and
body pointer are aliased by the stray pool), and decrements the live pool
count from 1 to 0, while the registry still lists pool "a". -/
theorem c9_counterexample :
    (∀ op ∈ exState1.pools, ∀ q, op = some q → q.addr ≠ 1048680) ∧
    mempool_destroy exState1
        (some ⟨1048680, 7, "stray", .MEM_POOL_DEFAULT, 1048592, 64, 128, 0, 0, 0, 0, 0⟩) =
      some (.ERR_SUCCESS,
        ⟨⟨[⟨1048576, 4194288, true⟩], 0, 16777216, 1⟩,
          some exPoolA :: List.replicate 15 none, 0⟩) ∧
    (.ERR_SUCCESS : ErrorCode) ≠ .ERR_INVALID_ARG ∧ (0 : Nat) ≠ 1 :=
  ⟨by decide, rfl, by decide, by decide⟩

end OpenNexus
